import Mathlib

/-!
Shallow embedding of the Blender-Spine-IO exporter core (the files under
`src/Output/`) over exact rational arithmetic, together with theorems that
settle the specification's claims.  Python floats are modelled by `ℚ`,
Python ints by `ℤ`/`ℕ`, dictionaries by association lists with Python's
last-write-wins semantics, and fallible code by `Except`/`Option`.
The first half of the file holds the translated definitions; all theorems
follow after them.
-/

namespace Spine

/-- Python `round(q)` with no digit argument: round half to even. -/
def pyround (q : ℚ) : ℤ :=
  let f := ⌊q⌋
  let r := q - f
  if r < 1/2 then f
  else if 1/2 < r then f + 1
  else if Even f then f else f + 1

/-- Python `round(q, 6)`: round to 6 decimal digits, half to even. -/
def round6 (q : ℚ) : ℚ := (pyround (q * 1000000) : ℚ) / 1000000

/-- Python `round(q, 4)`: round to 4 decimal digits, half to even. -/
def round4 (q : ℚ) : ℚ := (pyround (q * 10000) : ℚ) / 10000

/-- Python `abs(q)`, written so that the kernel can evaluate it on
concrete rationals. -/
def qabs (q : ℚ) : ℚ := if q < 0 then -q else q

/-- Group a flat list into consecutive pairs, as Python loops
`for i in range(0, len(l), 2)` do (an incomplete trailing element is
never formed into a pair). -/
def toPairs {α : Type} : List α → List (α × α)
  | a :: b :: rest => (a, b) :: toPairs rest
  | _ => []

/-- Group a flat list into consecutive triples, as Python loops
`for i in range(0, len(l), 3)` do. -/
def toTriples {α : Type} : List α → List (α × α × α)
  | a :: b :: c :: rest => (a, b, c) :: toTriples rest
  | _ => []

/-- Flatten a list of pairs back into a flat list (`out.extend([a, b])`). -/
def flattenPairs {α : Type} : List (α × α) → List α
  | [] => []
  | (a, b) :: rest => a :: b :: flattenPairs rest

/-- Keep the first occurrence of every element, drop later duplicates —
the `seen`-set idiom used throughout the Python source, and also the key
order of a Python dict (insertion order). -/
def dedupFirst {α : Type} [DecidableEq α] : List α → List α → List α
  | [], _ => []
  | x :: rest, seen =>
    if x ∈ seen then dedupFirst rest seen
    else x :: dedupFirst rest (x :: seen)

/-- The canonicalize-dedup loop of `_sanitize_pairs`: skip self-loops,
order each pair as `(min, max)`, drop pairs already seen. -/
def sanitizeLoop : List (ℤ × ℤ) → List (ℤ × ℤ) → List (ℤ × ℤ)
  | [], _ => []
  | (a, b) :: rest, seen =>
    if a = b then sanitizeLoop rest seen
    else
      let p := if a < b then (a, b) else (b, a)
      if p ∈ seen then sanitizeLoop rest seen
      else p :: sanitizeLoop rest (p :: seen)

/-- `_sanitize_pairs(flat_list, vcount)` from `SPINE_Output_meshutils.py`:
keep in-range ints, drop a trailing unpaired element, then drop self-loops
and canonicalize/dedup pairs. -/
def sanitize_pairs (flat_list : List ℤ) (vcount : ℤ) : List ℤ :=
  let ints := flat_list.filter (fun x => decide (0 ≤ x) && decide (x < max 0 vcount))
  let ints := if ints.length % 2 = 1 then ints.dropLast else ints
  flattenPairs (sanitizeLoop (toPairs ints) [])

/-- The emission loop of `encode_spine_edges`, producing the kept
`(a, b) = (2·u, 2·v)` stream pairs. -/
def encodeEmit (max_stream : ℤ) : List (ℤ × ℤ) → List (ℤ × ℤ)
  | [] => []
  | (u, v) :: rest =>
    let a := u * 2
    let b := v * 2
    if 0 ≤ a ∧ a ≤ max_stream ∧ 0 ≤ b ∧ b ≤ max_stream ∧ a ≠ b then
      (a, b) :: encodeEmit max_stream rest
    else encodeEmit max_stream rest

/-- `encode_spine_edges(keep_edges_new, vertex_count)` from
`SPINE_Output_meshutils.py`: sanitize the NEW-index pairs, then double
every index into the even `[x,y,...]` stream positions, keeping only
in-range non-equal pairs. -/
def encode_spine_edges (keep_edges_new : List ℤ) (vertex_count : ℤ) : List ℤ :=
  let clean := sanitize_pairs keep_edges_new vertex_count
  if clean = [] then []
  else
    let max_stream := vertex_count * 2 - 1
    flattenPairs (encodeEmit max_stream (toPairs clean))

/-- The per-index check loop of `validate_attachment_edges`: raise on an
odd index, raise on an out-of-range index. -/
def checkEdgeIndices (max_stream : ℤ) : List ℤ → Except String Unit
  | [] => .ok ()
  | ii :: rest =>
    if ii % 2 ≠ 0 then .error "ODD edge index; must be even"
    else if ii < 0 ∨ ii > max_stream then .error "edge index out of range"
    else checkEdgeIndices max_stream rest

/-- `validate_attachment_edges(att)` from `SPINE_Output_meshutils.py`,
with the attachment's `edges` and `uvs` fields passed explicitly:
an empty edge list passes; otherwise `vcount = len(uvs)//2` must be
positive and every edge index must be even and in `[0, 2*vcount)`. -/
def validate_attachment_edges (edges : List ℤ) (uvs : List ℚ) : Except String Unit :=
  if edges = [] then .ok ()
  else
    let vcount : ℤ := (uvs.length : ℤ) / 2
    if vcount ≤ 0 then .error "has edges but no UVs/verts"
    else checkEdgeIndices (vcount * 2 - 1) edges

/-- One entry of a Blender vertex's `groups` list: the vertex-group index
and the raw weight. -/
structure VGroupEntry where
  group : ℕ
  weight : ℚ

/-- The raw per-vertex collection loop of `build_vertex_influences` from
`SPINE_Output_weights.py` (lines 96-100): collect `(bone, weight)` pairs
restricted to deform bones with weight strictly above zero.
`vg_index_to_name` models the `vg_index_to_name` dict (`none` when `.get`
misses); the `n ≠ ""` test models Python's truthiness check
`if vg_name and ...`. -/
def inflRaw (vg_index_to_name : ℕ → Option String) (deform_names : List String)
    (groups : List VGroupEntry) : List (String × ℚ) :=
  groups.filterMap (fun g =>
    (match vg_index_to_name g.group with
    | some n =>
        if n ≠ "" ∧ n ∈ deform_names ∧ (0 : ℚ) < g.weight then some (n, g.weight) else none
    | none => none : Option (String × ℚ)))

/-- Lines 102-104: drop weights `≤ weight_eps`, sort descending by weight
(Python's stable sort), truncate to `max_influences`. -/
def inflTrunc (vg_index_to_name : ℕ → Option String) (deform_names : List String)
    (groups : List VGroupEntry) (weight_eps : ℚ) (max_influences : ℕ) :
    List (String × ℚ) :=
  (((inflRaw vg_index_to_name deform_names groups).filter
      (fun p => decide (weight_eps < p.2))).mergeSort
        (fun a b => decide (b.2 ≤ a.2))).take max_influences

/-- The per-vertex body of `build_vertex_influences` (lines 96-110):
renormalize the kept weights to sum 1, or substitute the single
`(fallback_bone, 1.0)` entry when nothing was kept. -/
def vertex_influences (vg_index_to_name : ℕ → Option String)
    (deform_names : List String) (groups : List VGroupEntry)
    (weight_eps : ℚ) (max_influences : ℕ) (fallback_bone : String) :
    List (String × ℚ) :=
  let infl3 := inflTrunc vg_index_to_name deform_names groups weight_eps max_influences
  if infl3 ≠ [] then
    let s := (infl3.map Prod.snd).sum
    infl3.map (fun p => (p.1, if 0 < s then p.2 / s else 0))
  else [(fallback_bone, 1)]

/-- `build_vertex_influences(obj, ...)` over the whole mesh: the map
`src_vert_index -> influence list`, with each vertex given as its index
paired with its `groups` list. -/
def build_vertex_influences (vertices : List (ℕ × List VGroupEntry))
    (vg_index_to_name : ℕ → Option String) (deform_names : List String)
    (weight_eps : ℚ) (max_influences : ℕ) (fallback_bone : String) :
    List (ℕ × List (String × ℚ)) :=
  vertices.map (fun v =>
    (v.1, vertex_influences vg_index_to_name deform_names v.2
            weight_eps max_influences fallback_bone))

/-- `normalize_deg(a)` from `SPINE_Output_helpers.py`:
`(a + 180.0) % 360.0 - 180.0` (Python float `%` with a positive modulus,
i.e. `x - 360*floor(x/360)`), mapping `-180.0` to `180.0`. -/
def normalize_deg (a : ℚ) : ℚ :=
  let b := (a + 180) - 360 * ⌊(a + 180) / 360⌋ - 180
  if b = -180 then 180 else b

/-- `is_vertical_rel_deg(rel_ccw, tol)` from `SPINE_Output_helpers.py`. -/
def is_vertical_rel_deg (rel_ccw : ℚ) (tol : ℚ) : Bool :=
  let rel_n := qabs (normalize_deg rel_ccw)
  decide (qabs (rel_n - 90) ≤ tol)

/-- The non-root bone rotation computed by `export_now`
(`SPINE_Output_exporter.py` lines 106-109):
`rot_spine = normalize_deg(-rel_ccw)`, and when the relative angle is not
within the vertical tolerance the sign of `rot_spine` is flipped. -/
def bone_rotation (rel_ccw : ℚ) (tol : ℚ) : ℚ :=
  let rot_spine := normalize_deg (-rel_ccw)
  if is_vertical_rel_deg rel_ccw tol then rot_spine else -rot_spine

/-- Association-list lookup with decidable equality, modelling Python dict
lookup (`key in d`, `d[key]`) for dicts that are only ever extended with
fresh keys. -/
def alookup {κ ν : Type} [DecidableEq κ] : List (κ × ν) → κ → Option ν
  | [], _ => none
  | (k, v) :: rest, key => if key = k then some v else alookup rest key

/-- The `(u, v)` coordinates of loop `li`: the UV layer's value flipped
vertically (`(uv.x, 1 - uv.y)`), or the `(0.0, 1.0)` fallback when there
is no UV layer or the loop is out of range of its data. -/
def loopUV (uvdata : Option (List (ℚ × ℚ))) (li : ℕ) : ℚ × ℚ :=
  match uvdata with
  | some data =>
    if h : li < data.length then ((data.get ⟨li, h⟩).1, 1 - (data.get ⟨li, h⟩).2)
    else (0, 1)
  | none => (0, 1)

/-- The dedup key of a loop: `(vertex_index, round(u, 6), round(v, 6))`. -/
def loopKey (uvdata : Option (List (ℚ × ℚ))) (vi li : ℕ) : ℕ × ℚ × ℚ :=
  let uv := loopUV uvdata li
  (vi, round6 uv.1, round6 uv.2)

/-- Accumulated state of the `build_region_vertices_uvs` loop. -/
structure RegionState where
  uvs : List ℚ
  loopkey_to_new : List ((ℕ × ℚ × ℚ) × ℕ)
  new_to_src : List (ℕ × ℕ)
  region_xy : List (ℚ × ℚ)

/-- One iteration of the `for li, loop in enumerate(me.loops)` loop of
`build_region_vertices_uvs`: a first-seen key allocates the next NEW index
and appends the rounded UV pair and the centered pixel-space coordinate. -/
def regionStep (img_w img_h : ℚ) (uvdata : Option (List (ℚ × ℚ)))
    (st : RegionState) (li vi : ℕ) : RegionState :=
  let u := (loopUV uvdata li).1
  let v := (loopUV uvdata li).2
  let key := (vi, round6 u, round6 v)
  if (alookup st.loopkey_to_new key).isSome then st
  else
    { uvs := st.uvs ++ [round6 u, round6 v]
      loopkey_to_new := st.loopkey_to_new ++ [(key, st.loopkey_to_new.length)]
      new_to_src := st.new_to_src ++ [(vi, li)]
      region_xy := st.region_xy ++
        [(u * img_w - img_w * (1/2), img_h * (1/2) - v * img_h)] }

/-- `build_region_vertices_uvs(me, uv_layer, img_w, img_h)` from
`SPINE_Output_meshutils.py`, with the mesh's loops given as their
vertex indices and the UV layer as an optional list of raw `uv` pairs. -/
def build_region_vertices_uvs (loops : List ℕ) (uvdata : Option (List (ℚ × ℚ)))
    (img_w img_h : ℚ) : RegionState :=
  loops.enum.foldl (fun st p => regionStep img_w img_h uvdata st p.1 p.2)
    ⟨[], [], [], []⟩

/-- Blender keyframe interpolation modes as seen by the exporter. -/
inductive Interp
  | bezier
  | constant
  | linear
  | other
deriving DecidableEq

/-- One Blender keyframe point: `co`, `handle_left`, `handle_right` in
(frame, value) space, and the interpolation mode of its segment. -/
structure Keyframe where
  co : ℚ × ℚ
  handle_left : ℚ × ℚ
  handle_right : ℚ × ℚ
  interpolation : Interp
deriving DecidableEq

/-- `_scene_seconds(frame, fps)`. -/
def scene_seconds (frame : ℚ) (fps : ℚ) : ℚ :=
  if 0 < fps then frame / fps else frame

/-- Apply an optional per-channel value transform (the `vx` closure of
`_handles_to_curve_abs_seconds`). -/
def applyXform (xf : Option (ℚ → ℚ)) (v : ℚ) : ℚ :=
  match xf with
  | some f => f v
  | none => v

/-- `_knot_map_by_frame(fc)[f]`: the dict maps `int(round(k.co.x))` to `k`
with later keyframes overwriting earlier ones, so lookup finds the last
keyframe whose rounded frame equals `f`. -/
def knot_lookup (fc : List Keyframe) (f : ℤ) : Option Keyframe :=
  (fc.filter (fun k => decide (pyround k.co.1 = f))).getLast?

/-- `_handles_to_curve_abs_seconds(k_i, k_j, fps, value_xform)` from
`SPINE_Output_animation.py`: `None` unless both keyframes exist and are
BEZIER, the frame span exceeds 1e-12 and the raw values differ by more
than 1e-12; otherwise the 4-number control array
`[cx1, cy1, cx2, cy2]` built from the right handle of `k_i` and the left
handle of `k_j`, in absolute seconds and transformed value units. -/
def handles_to_curve_abs_seconds :
    Option Keyframe → Option Keyframe → ℚ → Option (ℚ → ℚ) → Option (List ℚ)
  | some k_i, some k_j, fps, value_xform =>
    if k_i.interpolation ≠ .bezier ∨ k_j.interpolation ≠ .bezier then none
    else if qabs (k_j.co.1 - k_i.co.1) ≤ 1 / 1000000000000 then none
    else
      let cx1 := scene_seconds k_i.handle_right.1 fps
      let cy1 := applyXform value_xform k_i.handle_right.2
      let cx2 := scene_seconds k_j.handle_left.1 fps
      let cy2 := applyXform value_xform k_j.handle_left.2
      if qabs (k_j.co.2 - k_i.co.2) ≤ 1 / 1000000000000 then none
      else some [round6 cx1, round6 cy1, round6 cx2, round6 cy2]
  | _, _, _, _ => none

/-- The 4-number control array emitted by
`_handles_to_curve_abs_seconds` when all conditions pass. -/
def curve4 (k_i k_j : Keyframe) (fps : ℚ) (xf : Option (ℚ → ℚ)) : List ℚ :=
  [round6 (scene_seconds k_i.handle_right.1 fps),
   round6 (applyXform xf k_i.handle_right.2),
   round6 (scene_seconds k_j.handle_left.1 fps),
   round6 (applyXform xf k_j.handle_left.2)]

/-- The curve annotation attached to one keyframe record. -/
inductive CurveTag
  | stepped
  | curve (c : List ℚ)
deriving DecidableEq

/-- The per-segment curve decision of `_emit_channel_timelines`
(`SPINE_Output_animation.py` lines 94-122) for the segment from frame `f`
to the next frame `nxt`: "stepped" when the reference (first channel)
start keyframe exists and is CONSTANT; otherwise, for one channel the
4-number array from that channel's endpoint knots, and for two channels
the X-then-Y concatenation of the two 4-number arrays, emitted only when
both per-channel arrays exist. -/
def segment_curve (fcurves : List (List Keyframe)) (f nxt : ℤ) (fps : ℚ)
    (xforms : List (ℚ → ℚ)) : Option CurveTag :=
  match fcurves with
  | [] => none
  | fc0 :: rest =>
    let k_i_ref := knot_lookup fc0 f
    let k_j_ref := knot_lookup fc0 nxt
    if k_i_ref.map Keyframe.interpolation = some .constant then some .stepped
    else
      match rest with
      | [] =>
        match handles_to_curve_abs_seconds k_i_ref k_j_ref fps xforms.head? with
        | some c => some (.curve c)
        | none => none
      | fc1 :: _ =>
        match handles_to_curve_abs_seconds (knot_lookup fc0 f) (knot_lookup fc0 nxt)
                fps xforms.head?,
              handles_to_curve_abs_seconds (knot_lookup fc1 f) (knot_lookup fc1 nxt)
                fps (xforms.get? 1) with
        | some cx, some cy => some (.curve (cx ++ cy))
        | _, _ => none

/-- One keyframe record produced by `_emit_channel_timelines`: the rounded
time, the `"_vals"` list of transformed channel values, an optional curve
annotation, and the `"value"` field written later by the rotate section
(absent until then). -/
structure TimelineKey where
  time : ℚ
  vals : List ℚ
  curve : Option CurveTag
  value : Option ℚ
deriving DecidableEq

/-- The rotate-section post-processing of `build_animations`
(`SPINE_Output_animation.py` lines 196-206): every record pops `"_vals"`;
a record whose transformed angle has magnitude above 1e-9 gets
`"value" = angle` and marks `wrote_any`; the whole `rotate` timeline is
written only when `wrote_any` is set (`none` models "no rotate timeline
written"). -/
def rotate_postprocess (keys : List TimelineKey) : Option (List TimelineKey) :=
  let keys2 := keys.map (fun k =>
    let angle := k.vals.getD 0 0
    if 1 / 1000000000 < qabs angle then { k with vals := [], value := some angle }
    else { k with vals := [] })
  if keys.any (fun k => decide ((1 : ℚ) / 1000000000 < qabs (k.vals.getD 0 0))) then
    some keys2
  else none

/-- One Blender F-curve as seen by `build_animations`: its `array_index`
and its keyframe points. -/
structure FCurve where
  array_index : ℕ
  keyframe_points : List Keyframe

/-- The `index_whitelist` filter of `_fcurves_for_path`. -/
def fcurves_whitelist (fcs : List FCurve) (wl : List ℕ) : List FCurve :=
  fcs.filter (fun fc => decide (fc.array_index ∈ wl))

/-- `by_idx = {fc.array_index: fc for fc in loc_fc}[i]`: Python dict
comprehension semantics — the last F-curve with a given index wins. -/
def by_array_index (fcs : List FCurve) (i : ℕ) : Option FCurve :=
  (fcs.filter (fun fc => decide (fc.array_index = i))).getLast?

/-- The `pair` construction of `build_animations` (lines 172-174 and
214-216): append the F-curve at the first mapped index, then the one at
the second mapped index, when present. -/
def channel_pair (fcs : List FCurve) (ix iy : ℕ) : List FCurve :=
  (match by_array_index fcs ix with | some fc => [fc] | none => []) ++
  (match by_array_index fcs iy with | some fc => [fc] | none => [])

/-- `_emit_channel_timelines` emits one record per distinct rounded
keyframe frame across the supplied channels, so it returns a non-empty
`keys` list exactly when some channel has a keyframe. -/
def emit_has_keys (fcs : List FCurve) : Bool :=
  fcs.any (fun fc => !fc.keyframe_points.isEmpty)

/-- The translate pair of `build_animations`: location F-curves filtered
to indices 0-2, paired via `AXIS_MAP["loc_to_spine"]` = `{x: 1, y: 0}`. -/
def loc_pair (loc_fc : List FCurve) : List FCurve :=
  channel_pair (fcurves_whitelist loc_fc [0, 1, 2]) 1 0

/-- Line 176/182-188: a `translate` timeline is written iff the pair is
complete (`len(pair) == 2`) and `keys` is non-empty. -/
def translate_emitted (loc_fc : List FCurve) : Bool :=
  ((loc_pair loc_fc).length == 2) && emit_has_keys (loc_pair loc_fc)

/-- The scale pair of `build_animations`: scale F-curves filtered to
indices 0-2, paired via `AXIS_MAP["scale_to_spine"]` = `{x: 0, y: 2}`. -/
def scale_pair (scl_fc : List FCurve) : List FCurve :=
  channel_pair (fcurves_whitelist scl_fc [0, 1, 2]) 0 2

/-- Line 218/222-228: a `scale` timeline is written iff the pair is
complete and `keys` is non-empty. -/
def scale_emitted (scl_fc : List FCurve) : Bool :=
  ((scale_pair scl_fc).length == 2) && emit_has_keys (scale_pair scl_fc)

/-- The canonicalization `(u, v) = (e[0], e[1]) if e[0] < e[1] else (e[1], e[0])`
used by `_edge_counts_from_tris`. -/
def canonEdge (a b : ℤ) : ℤ × ℤ := if a < b then (a, b) else (b, a)

/-- The three canonical undirected edges of every triangle, in the order
the `for e in ((a,b),(b,c),(c,a))` loop of `_edge_counts_from_tris`
produces them. -/
def triEdgeList : List (ℤ × ℤ × ℤ) → List (ℤ × ℤ)
  | [] => []
  | (a, b, c) :: rest =>
    canonEdge a b :: canonEdge b c :: canonEdge c a :: triEdgeList rest

/-- `_tri_boundary_edges_from_tris(tri_indices)` from
`SPINE_Output_meshutils.py`: the canonical edges whose multiplicity in the
triangle list is exactly 1, in dict insertion (first-occurrence) order. -/
def tri_boundary_edges_from_tris (tri_indices : List ℤ) : List (ℤ × ℤ) :=
  let es := triEdgeList (toTriples tri_indices)
  (dedupFirst es []).filter (fun e => decide (es.count e = 1))

/-- Lexicographic comparison of edge pairs, as Python's `sorted` compares
tuples. -/
def lexLe (p q : ℤ × ℤ) : Bool :=
  decide (p.1 < q.1 ∨ (p.1 = q.1 ∧ p.2 ≤ q.2))

/-- Insert into a lexicographically sorted pair list. -/
def insertLex (p : ℤ × ℤ) : List (ℤ × ℤ) → List (ℤ × ℤ)
  | [] => [p]
  | q :: rest => if lexLe p q then p :: q :: rest else q :: insertLex p rest

/-- `sorted(edge_pairs)`: the edge-pair set holds pairwise distinct
elements and `lexLe` is a total order, so the sorted permutation is
unique and insertion sort computes exactly Python's `sorted` output. -/
def sortPairs : List (ℤ × ℤ) → List (ℤ × ℤ)
  | [] => []
  | p :: rest => insertLex p (sortPairs rest)

/-- The `mode="boundary"` path of `build_edges_from_tris_and_manual`
(`SPINE_Output_meshutils.py` lines 159-197): with mode `"boundary"` the
manual/seam branch is skipped, so the result is the in-range non-loop
triangle boundary edges, canonicalized into a set, sorted, flattened and
sanitized.  `vcount` is `len(region_xy)`. -/
def build_edges_boundary (triangles : List ℤ) (vcount : ℤ) : List ℤ :=
  let edge_pairs : List (ℤ × ℤ) :=
    if triangles = [] then []
    else
      dedupFirst ((tri_boundary_edges_from_tris triangles).filterMap (fun e =>
        if 0 ≤ e.1 ∧ e.1 < vcount ∧ 0 ≤ e.2 ∧ e.2 < vcount ∧ e.1 ≠ e.2 then
          some (canonEdge e.1 e.2)
        else none)) []
  sanitize_pairs (flattenPairs (sortPairs edge_pairs)) vcount

/-- `tri_area2_xy(pts, a, b, c)` from `SPINE_Output_meshutils.py`: twice
the signed area (CCW positive) of triangle `a-b-c`; out-of-range indices
use `(0, 0)` where Python would raise. -/
def tri_area2_xy (pts : List (ℚ × ℚ)) (a b c : ℕ) : ℚ :=
  let pa := pts.getD a (0, 0)
  let pb := pts.getD b (0, 0)
  let pc := pts.getD c (0, 0)
  (pb.1 - pa.1) * (pc.2 - pa.2) - (pb.2 - pa.2) * (pc.1 - pa.1)

/-- The local `cross(i, j, k)` closure of `convex_hull_indices_xy` — the
same determinant as `tri_area2_xy`. -/
def cross_xy (pts : List (ℚ × ℚ)) (i j k : ℕ) : ℚ :=
  let a := pts.getD i (0, 0)
  let b := pts.getD j (0, 0)
  let c := pts.getD k (0, 0)
  (b.1 - a.1) * (c.2 - a.2) - (b.2 - a.2) * (c.1 - a.1)

/-- The lexicographic point comparison used by
`sorted(range(n), key=lambda i: (pts[i][0], pts[i][1]))`. -/
def lexKeyLe (pts : List (ℚ × ℚ)) (i j : ℕ) : Bool :=
  decide ((pts.getD i (0, 0)).1 < (pts.getD j (0, 0)).1 ∨
    ((pts.getD i (0, 0)).1 = (pts.getD j (0, 0)).1 ∧
      (pts.getD i (0, 0)).2 ≤ (pts.getD j (0, 0)).2))

/-- `sorted(range(n), key=...)`: a stable sort of the indices by point,
lexicographically. -/
def sortedIdx (pts : List (ℚ × ℚ)) : List ℕ :=
  (List.range pts.length).mergeSort (lexKeyLe pts)

/-- The `while len(chain) >= 2 and cross(chain[-2], chain[-1], i) <= 0:
chain.pop()` loop of the monotone chain, with the chain stored reversed
(head = most recently pushed index). -/
def chPop (pts : List (ℚ × ℚ)) (i : ℕ) : List ℕ → List ℕ
  | b :: a :: rest =>
    if cross_xy pts a b i ≤ 0 then chPop pts i (a :: rest) else b :: a :: rest
  | chain => chain

/-- One half (lower or upper) of the monotone chain over the given index
order, stored reversed. -/
def chainFold (pts : List (ℚ × ℚ)) (idxs : List ℕ) : List ℕ :=
  idxs.foldl (fun chain i => i :: chPop pts i chain) []

/-- `convex_hull_indices_xy(pts)` from `SPINE_Output_meshutils.py`:
monotone chain, CCW output; inputs of at most 3 points are returned as
`range(n)` unchanged.  `lower[:-1] + upper[:-1]` is deduplicated
preserving order. -/
def convex_hull_indices_xy (pts : List (ℚ × ℚ)) : List ℕ :=
  if pts.length ≤ 3 then List.range pts.length
  else
    let sorted_idx := sortedIdx pts
    let lower := (chainFold pts sorted_idx).reverse
    let upper := (chainFold pts sorted_idx.reverse).reverse
    dedupFirst (lower.dropLast ++ upper.dropLast) []

/-- `hull_idx` of `hull_first_reorder`: the convex hull when at least 3
region points exist, else `range(n)`. -/
def hfr_hull_idx (region : List (ℚ × ℚ)) : List ℕ :=
  if region.length ≥ 3 then convex_hull_indices_xy region
  else List.range region.length

/-- `new_order = list(hull_idx) + tail_idx` of `hull_first_reorder`: hull
indices first, then all remaining indices in original order. -/
def hfr_new_order (region : List (ℚ × ℚ)) : List ℕ :=
  hfr_hull_idx region ++
    (List.range region.length).filter (fun i => decide (i ∉ hfr_hull_idx region))

/-- `old_to_new = {old: i for i, old in enumerate(new_order)}`: Python
dict comprehension, last occurrence wins; a missing key (which would raise
in Python) maps to 0. -/
def old_to_new_fn (new_order : List ℕ) (old : ℕ) : ℕ :=
  (((new_order.enum.filter (fun p => decide (p.2 = old))).map Prod.fst).getLastD 0)

/-- `region_xy2 = [region_xy_centered[old] for old in new_order]`. -/
def hfr_region2 (region : List (ℚ × ℚ)) : List (ℚ × ℚ) :=
  (hfr_new_order region).map (fun old => region.getD old (0, 0))

/-- The triangle remap loop of `hull_first_reorder` (lines 273-282): remap
each triangle's indices through `old_to_new`, drop triangles with
`|area2| < 1e-9`, swap the second and third index when `area2 < 0`. -/
def remapTris (region2 : List (ℚ × ℚ)) (o2n : ℕ → ℕ) :
    List (ℕ × ℕ × ℕ) → List ℕ
  | [] => []
  | (a, b, c) :: rest =>
    let a2 := o2n a
    let b2 := o2n b
    let c2 := o2n c
    let area2 := tri_area2_xy region2 a2 b2 c2
    if qabs area2 < 1 / 1000000000 then remapTris region2 o2n rest
    else if area2 < 0 then a2 :: c2 :: b2 :: remapTris region2 o2n rest
    else a2 :: b2 :: c2 :: remapTris region2 o2n rest

/-- `hull_first_reorder`'s remapped triangle list. -/
def hfr_remapped (region : List (ℚ × ℚ)) (triangles : List ℕ) : List ℕ :=
  remapTris (hfr_region2 region) (old_to_new_fn (hfr_new_order region))
    (toTriples triangles)

/-- The fan-triangulation fallback `for i in range(1, len(region_xy2)-1):
remapped_tris.extend([0, i, i+1])`. -/
def fanTris (n : ℕ) : List ℕ :=
  (List.range (n - 2)).foldr (fun i acc => 0 :: (i + 1) :: (i + 2) :: acc) []

/-- `hull_first_reorder(region_xy_centered, uvs, new_to_src, triangles)`
from `SPINE_Output_meshutils.py`: returns
`(region_xy2, uvs2, new_to_src2, triangles2, hull_idx)`. -/
def hull_first_reorder (region_xy_centered : List (ℚ × ℚ)) (uvs : List ℚ)
    (new_to_src : List (ℕ × ℕ)) (triangles : List ℕ) :
    List (ℚ × ℚ) × List ℚ × List (ℕ × ℕ) × List ℕ × List ℕ :=
  (hfr_region2 region_xy_centered,
   flattenPairs ((hfr_new_order region_xy_centered).map
     (fun old => (toPairs uvs).getD old (0, 0))),
   (hfr_new_order region_xy_centered).map (fun old => new_to_src.getD old (0, 0)),
   (if hfr_remapped region_xy_centered triangles = [] ∧
       (hfr_region2 region_xy_centered).length ≥ 3 then
      fanTris (hfr_region2 region_xy_centered).length
    else hfr_remapped region_xy_centered triangles),
   hfr_hull_idx region_xy_centered)


/-- The point of index `t`, as the hull code reads it: `pts[t]`, with the
out-of-range default `(0, 0)`. -/
def ptsQ (pts : List (ℚ × ℚ)) : ℕ → ℚ × ℚ := fun t => pts.getD t (0, 0)

/-- The planar cross product `(b - a) × (c - a)`: twice the signed area of
the triangle `a b c`, the determinant used by both `tri_area2_xy` and the
hull's local `cross`. -/
def pcross (a b c : ℚ × ℚ) : ℚ :=
  (b.1 - a.1) * (c.2 - a.2) - (b.2 - a.2) * (c.1 - a.1)

/-- Strict lexicographic order on points — the order underlying the hull's
index sort `key=lambda i: (pts[i][0], pts[i][1])`. -/
def plexLt (p q : ℚ × ℚ) : Prop := p.1 < q.1 ∨ (p.1 = q.1 ∧ p.2 < q.2)

/-- Non-strict lexicographic order on points. -/
def plexLe (p q : ℚ × ℚ) : Prop := p.1 < q.1 ∨ (p.1 = q.1 ∧ p.2 ≤ q.2)

/-- Generalization of `chPop` over an arbitrary index-to-point map `Q`, so
the same lemmas serve the lower chain (`Q` = the points) and the upper
chain (`Q` = the negated points). -/
def gPop (Q : ℕ → ℚ × ℚ) (i : ℕ) : List ℕ → List ℕ
  | b :: a :: rest =>
    if pcross (Q a) (Q b) (Q i) ≤ 0 then gPop Q i (a :: rest) else b :: a :: rest
  | chain => chain

/-- Generalization of `chainFold` over an index-to-point map. -/
def gFold (Q : ℕ → ℚ × ℚ) (idxs : List ℕ) : List ℕ :=
  idxs.foldl (fun chain i => i :: gPop Q i chain) []

/-- The stored (reversed) chain is strictly lexicographically decreasing,
i.e. the chain in build order is strictly increasing. -/
def ChainIncr (Q : ℕ → ℚ × ℚ) (C : List ℕ) : Prop :=
  List.Chain' (fun b a => plexLt (Q a) (Q b)) C

/-- Every consecutive triple of the stored chain is a strict left turn
(read in build order). -/
def ChainLeft (Q : ℕ → ℚ × ℚ) : List ℕ → Prop
  | c :: b :: a :: rest => 0 < pcross (Q a) (Q b) (Q c) ∧ ChainLeft Q (b :: a :: rest)
  | _ => True

/-- The point of index `q` lies on or to the left of every directed chain
edge (edges read in build order). -/
def EdgesAbove (Q : ℕ → ℚ × ℚ) (q : ℕ) (C : List ℕ) : Prop :=
  List.Chain' (fun b a => 0 ≤ pcross (Q a) (Q b) (Q q)) C

/-- Invariant of the monotone-chain fold: `C` is the stored chain after
processing the indices `done` in order. -/
structure GoodChain (Q : ℕ → ℚ × ℚ) (done C : List ℕ) : Prop where
  incr : ChainIncr Q C
  turn : ChainLeft Q C
  above : ∀ q ∈ done, EdgesAbove Q q C
  sub : ∀ c ∈ C, c ∈ done
  bot : C.getLast? = done.head?
  top : C.head? = done.getLast?

/-- Spec-side (follows the spec's words, for comparison with the code's
hull): the vertex list, read cyclically, is a convex polygon with strict
counter-clockwise winding — every cyclic triple of consecutive vertices is
a strict left turn. -/
def IsCCWConvexPolygon (poly : List (ℚ × ℚ)) : Prop :=
  3 ≤ poly.length ∧
  ∀ i < poly.length,
    0 < pcross (poly.getD i (0, 0)) (poly.getD ((i + 1) % poly.length) (0, 0))
      (poly.getD ((i + 2) % poly.length) (0, 0))

/-- Spec-side: the point `q` lies inside or on the boundary of the CCW
polygon `poly` — on or to the left of every directed cyclic edge. -/
def PolygonContains (poly : List (ℚ × ℚ)) (q : ℚ × ℚ) : Prop :=
  ∀ i < poly.length,
    0 ≤ pcross (poly.getD i (0, 0)) (poly.getD ((i + 1) % poly.length) (0, 0)) q

/-- Degeneracy: all points of the list lie on one line. -/
def AllCollinear (pts : List (ℚ × ℚ)) : Prop :=
  ∀ a ∈ pts, ∀ b ∈ pts, ∀ c ∈ pts, pcross a b c = 0

end Spine

namespace Spine

theorem qabs_eq_abs (q : ℚ) : qabs q = |q| := by
  rw [qabs]
  rcases lt_or_ge q 0 with h | h
  · rw [if_pos h, abs_of_neg h]
  · rw [if_neg (not_lt.mpr h), abs_of_nonneg h]

theorem flattenPairs_toPairs {α : Type} (l : List (α × α)) :
    toPairs (flattenPairs l) = l := by
  induction l with
  | nil => rfl
  | cons p rest ih => cases p; simp [flattenPairs, toPairs, ih]

theorem mem_flattenPairs {α : Type} {x : α} {l : List (α × α)} :
    x ∈ flattenPairs l ↔ ∃ p ∈ l, x = p.1 ∨ x = p.2 := by
  induction l with
  | nil => simp [flattenPairs]
  | cons p rest ih =>
    obtain ⟨a, b⟩ := p
    simp only [flattenPairs, List.mem_cons, ih]
    aesop

theorem encodeEmit_mem {max_stream : ℤ} {l : List (ℤ × ℤ)} {p : ℤ × ℤ}
    (hp : p ∈ encodeEmit max_stream l) :
    (∃ q ∈ l, p = (q.1 * 2, q.2 * 2)) ∧
      0 ≤ p.1 ∧ p.1 ≤ max_stream ∧ 0 ≤ p.2 ∧ p.2 ≤ max_stream ∧ p.1 ≠ p.2 := by
  induction l with
  | nil => simp [encodeEmit] at hp
  | cons q rest ih =>
    obtain ⟨u, v⟩ := q
    by_cases h : 0 ≤ u * 2 ∧ u * 2 ≤ max_stream ∧ 0 ≤ v * 2 ∧ v * 2 ≤ max_stream ∧ u * 2 ≠ v * 2
    · simp only [encodeEmit, if_pos h, List.mem_cons] at hp
      rcases hp with rfl | hp
      · exact ⟨⟨(u, v), List.mem_cons_self .., rfl⟩, h.1, h.2.1, h.2.2.1, h.2.2.2.1, h.2.2.2.2⟩
      · obtain ⟨⟨q, hq, hpq⟩, hrest⟩ := ih hp
        exact ⟨⟨q, List.mem_cons_of_mem _ hq, hpq⟩, hrest⟩
    · simp only [encodeEmit, if_neg h] at hp
      obtain ⟨⟨q, hq, hpq⟩, hrest⟩ := ih hp
      exact ⟨⟨q, List.mem_cons_of_mem _ hq, hpq⟩, hrest⟩

theorem checkEdgeIndices_ok {max_stream : ℤ} {l : List ℤ}
    (h : ∀ x ∈ l, x % 2 = 0 ∧ 0 ≤ x ∧ x ≤ max_stream) :
    checkEdgeIndices max_stream l = .ok () := by
  induction l with
  | nil => rfl
  | cons x rest ih =>
    obtain ⟨he, hlo, hhi⟩ := h x (List.mem_cons_self ..)
    rw [checkEdgeIndices]
    rw [if_neg (by simp [he]), if_neg (by push_neg; exact ⟨hlo, hhi⟩)]
    exact ih fun y hy => h y (List.mem_cons_of_mem _ hy)

/-- C2: every value produced by `encode_spine_edges` is even and lies in
`[0, 2·v)`, the two members of every consecutive pair differ, and
`validate_attachment_edges` accepts an attachment whose `edges` were
produced by `encode_spine_edges` with `vertex_count = len(uvs)//2 ≥ 1`. -/
theorem encode_spine_edges_valid (input : List ℤ) (v : ℕ) (uvs : List ℚ)
    (hv : 1 ≤ v) (huvs : uvs.length = 2 * v) :
    (∀ e ∈ encode_spine_edges input (v : ℤ), e % 2 = 0 ∧ 0 ≤ e ∧ e < 2 * (v : ℤ)) ∧
    (∀ p ∈ toPairs (encode_spine_edges input (v : ℤ)), p.1 ≠ p.2) ∧
    validate_attachment_edges (encode_spine_edges input (v : ℤ)) uvs = .ok () := by
  set clean := sanitize_pairs input (v : ℤ) with hclean
  have hmem : ∀ e ∈ encode_spine_edges input (v : ℤ),
      e % 2 = 0 ∧ 0 ≤ e ∧ e ≤ (v : ℤ) * 2 - 1 := by
    intro e he
    rw [encode_spine_edges, ← hclean] at he
    by_cases hc : clean = []
    · rw [if_pos hc] at he; simp at he
    · rw [if_neg hc] at he
      rw [mem_flattenPairs] at he
      obtain ⟨p, hp, hep⟩ := he
      obtain ⟨⟨q, _, hpq⟩, h1, h2, h3, h4, _⟩ := encodeEmit_mem hp
      rcases hep with rfl | rfl
      · refine ⟨?_, h1, h2⟩
        rw [hpq]; simp only []; omega
      · refine ⟨?_, h3, h4⟩
        rw [hpq]; simp only []; omega
  refine ⟨fun e he => ?_, fun p hp => ?_, ?_⟩
  · obtain ⟨h1, h2, h3⟩ := hmem e he
    exact ⟨h1, h2, by omega⟩
  · rw [encode_spine_edges, ← hclean] at hp
    by_cases hc : clean = []
    · rw [if_pos hc] at hp; simp [toPairs] at hp
    · rw [if_neg hc, flattenPairs_toPairs] at hp
      exact (encodeEmit_mem hp).2.2.2.2.2
  · rw [validate_attachment_edges]
    by_cases he : encode_spine_edges input (v : ℤ) = []
    · rw [if_pos he]
    · rw [if_neg he]
      have hvc : ((uvs.length : ℤ) / 2) = (v : ℤ) := by
        rw [huvs]; push_cast; omega
      rw [hvc, if_neg (by omega)]
      exact checkEdgeIndices_ok hmem

theorem sum_map_div (l : List (String × ℚ)) (c : ℚ) :
    ((l.map (fun p => p.2 / c)).sum) = (l.map Prod.snd).sum / c := by
  induction l with
  | nil => simp
  | cons p rest ih => simp [ih, add_div]

theorem inflTrunc_mem_gt {f : ℕ → Option String} {deform : List String}
    {groups : List VGroupEntry} {eps : ℚ} {maxI : ℕ} {p : String × ℚ}
    (hp : p ∈ inflTrunc f deform groups eps maxI) : eps < p.2 := by
  have h1 : p ∈ ((inflRaw f deform groups).filter
      (fun p => decide (eps < p.2))).mergeSort (fun a b => decide (b.2 ≤ a.2)) :=
    List.mem_of_mem_take hp
  rw [List.mem_mergeSort] at h1
  have := List.of_mem_filter h1
  simpa using this

/-- C3: with `weight_eps > 0` and `max_influences ≥ 1`, every vertex of the
mesh gets (in the map built by `build_vertex_influences`) a non-empty
influence list of length at most `max_influences` whose weights sum to 1.0
within 1e-6; a vertex with no deform weight above `weight_eps` gets
exactly the single entry `(fallback_bone, 1.0)`. -/
theorem build_vertex_influences_spec (vertices : List (ℕ × List VGroupEntry))
    (vg_index_to_name : ℕ → Option String) (deform_names : List String)
    (weight_eps : ℚ) (max_influences : ℕ) (fallback_bone : String)
    (vi : ℕ) (groups : List VGroupEntry)
    (heps : 0 < weight_eps) (hmax : 1 ≤ max_influences)
    (hv : (vi, groups) ∈ vertices) :
    (vi, vertex_influences vg_index_to_name deform_names groups
        weight_eps max_influences fallback_bone) ∈
      build_vertex_influences vertices vg_index_to_name deform_names
        weight_eps max_influences fallback_bone ∧
    vertex_influences vg_index_to_name deform_names groups
        weight_eps max_influences fallback_bone ≠ [] ∧
    (vertex_influences vg_index_to_name deform_names groups
        weight_eps max_influences fallback_bone).length ≤ max_influences ∧
    |((vertex_influences vg_index_to_name deform_names groups
        weight_eps max_influences fallback_bone).map Prod.snd).sum - 1| ≤ 1 / 1000000 ∧
    ((∀ g ∈ groups, ∀ n, vg_index_to_name g.group = some n → n ≠ "" →
        n ∈ deform_names → g.weight ≤ weight_eps) →
      vertex_influences vg_index_to_name deform_names groups
        weight_eps max_influences fallback_bone = [(fallback_bone, 1)]) := by
  constructor
  · exact List.mem_map_of_mem _ hv
  have hkept : (∀ g ∈ groups, ∀ n, vg_index_to_name g.group = some n → n ≠ "" →
      n ∈ deform_names → g.weight ≤ weight_eps) →
      inflTrunc vg_index_to_name deform_names groups weight_eps max_influences = [] := by
    intro hno
    have hfilter : (inflRaw vg_index_to_name deform_names groups).filter
        (fun p => decide (weight_eps < p.2)) = [] := by
      rw [List.filter_eq_nil_iff]
      intro p hpr hpw0
      have hpw : weight_eps < p.2 := by simpa using hpw0
      rw [inflRaw, List.mem_filterMap] at hpr
      obtain ⟨g, hg, hgp⟩ := hpr
      split at hgp
      next n hfn =>
        split at hgp
        next hc =>
          obtain rfl := Option.some.inj hgp
          simp only [] at hpw
          exact absurd (hno g hg n hfn hc.1 hc.2.1) (by linarith)
        next hc => exact absurd hgp (by simp)
      next hfn => exact absurd hgp (by simp)
    rw [inflTrunc, hfilter]
    simp
  by_cases hne : inflTrunc vg_index_to_name deform_names groups weight_eps max_influences = []
  · rw [vertex_influences, if_neg (by simpa using hne)]
    refine ⟨by simp, by simpa using hmax, by norm_num, fun _ => rfl⟩
  · have hpos : ∀ x ∈ (inflTrunc vg_index_to_name deform_names groups weight_eps
        max_influences).map Prod.snd, 0 < x := by
      intro x hx
      rw [List.mem_map] at hx
      obtain ⟨p, hp, rfl⟩ := hx
      exact lt_trans heps (inflTrunc_mem_gt hp)
    have hs : 0 < ((inflTrunc vg_index_to_name deform_names groups weight_eps
        max_influences).map Prod.snd).sum :=
      List.sum_pos _ hpos (by simpa using hne)
    rw [vertex_influences, if_pos (by simpa using hne)]
    simp only [if_pos hs]
    refine ⟨by simpa using hne, ?_, ?_, fun hno => absurd (hkept hno) hne⟩
    · rw [List.length_map, inflTrunc]
      exact le_trans (List.length_take_le _ _) le_rfl
    · have hmap : ((inflTrunc vg_index_to_name deform_names groups weight_eps
          max_influences).map (fun p => ((p.1 : String), p.2 /
            ((inflTrunc vg_index_to_name deform_names groups weight_eps
              max_influences).map Prod.snd).sum))).map Prod.snd =
          (inflTrunc vg_index_to_name deform_names groups weight_eps
            max_influences).map (fun p => p.2 /
              ((inflTrunc vg_index_to_name deform_names groups weight_eps
                max_influences).map Prod.snd).sum) := by
        rw [List.map_map]; rfl
      rw [hmap, sum_map_div, div_self (ne_of_gt hs)]
      norm_num

/-- Witness for C3: the per-vertex influence list of a concrete vertex with
no deform groups is non-empty (it is the fallback entry). -/
theorem build_vertex_influences_spec_witness :
    vertex_influences (fun _ => none) [] [] (1 / 100) 2 "FB" ≠ [] :=
  (build_vertex_influences_spec [(0, [])] (fun _ => none) [] (1 / 100) 2 "FB" 0 []
    (by norm_num) (by norm_num) (by simp)).2.1

theorem normalize_deg_range (a : ℚ) :
    -180 < normalize_deg a ∧ normalize_deg a ≤ 180 := by
  rw [normalize_deg]
  have hf1 : (⌊(a + 180) / 360⌋ : ℚ) ≤ (a + 180) / 360 := Int.floor_le _
  have hf2 : (a + 180) / 360 < ⌊(a + 180) / 360⌋ + 1 := Int.lt_floor_add_one _
  have h1 : 0 ≤ (a + 180) - 360 * ⌊(a + 180) / 360⌋ := by linarith
  have h2 : (a + 180) - 360 * ⌊(a + 180) / 360⌋ < 360 := by linarith
  by_cases hb : (a + 180) - 360 * ⌊(a + 180) / 360⌋ - 180 = -180
  · simp only [hb, if_pos rfl]
    norm_num
  · simp only [if_neg hb]
    constructor
    · rcases lt_or_eq_of_le (by linarith :
        (-180 : ℚ) ≤ (a + 180) - 360 * ⌊(a + 180) / 360⌋ - 180) with h | h
      · exact h
      · exact absurd h.symm hb
    · linarith

/-- C4: for a non-root bone with frame-space angle `a` and parent angle
`p`, the exported rotation is the relative CCW angle `a - p`
sign-normalized into `(-180, 180]` (the code computes
`normalize_deg(-(a-p))`), with the sign of that output flipped exactly
when the (normalized) relative angle's absolute value deviates from 90°
by more than the vertical tolerance `tol`. -/
theorem bone_rotation_spec (a p tol : ℚ) :
    (-180 < normalize_deg (-(a - p)) ∧ normalize_deg (-(a - p)) ≤ 180) ∧
    bone_rotation (a - p) tol =
      (if |(|normalize_deg (a - p)|) - 90| > tol then -(normalize_deg (-(a - p)))
       else normalize_deg (-(a - p))) := by
  refine ⟨normalize_deg_range _, ?_⟩
  rw [bone_rotation, is_vertical_rel_deg]
  simp only [qabs_eq_abs]
  by_cases h : |(|normalize_deg (a - p)|) - 90| ≤ tol
  · simp [h, if_neg (not_lt.mpr h)]
  · simp [h, if_pos (not_le.mp h)]

theorem alookup_append_left {κ ν : Type} [DecidableEq κ]
    {l : List (κ × ν)} (l2 : List (κ × ν)) {k : κ} {v : ν}
    (h : alookup l k = some v) : alookup (l ++ l2) k = some v := by
  induction l with
  | nil => simp [alookup] at h
  | cons p rest ih =>
    obtain ⟨k0, v0⟩ := p
    by_cases hk : k = k0
    · simp only [alookup, if_pos hk] at h ⊢
      exact h
    · simp only [alookup, if_neg hk] at h ⊢
      exact ih h

theorem alookup_append_none {κ ν : Type} [DecidableEq κ]
    {l : List (κ × ν)} (l2 : List (κ × ν)) {k : κ}
    (h : alookup l k = none) : alookup (l ++ l2) k = alookup l2 k := by
  induction l with
  | nil => simp [alookup]
  | cons p rest ih =>
    obtain ⟨k0, v0⟩ := p
    by_cases hk : k = k0
    · simp [alookup, if_pos hk] at h
    · simp only [alookup, if_neg hk] at h ⊢
      exact ih h

theorem regionFold_len (img_w img_h : ℚ) (uvdata : Option (List (ℚ × ℚ))) :
    ∀ (pairs : List (ℕ × ℕ)) (st : RegionState),
      (pairs.foldl (fun st p => regionStep img_w img_h uvdata st p.1 p.2)
        st).new_to_src.length ≤ st.new_to_src.length + pairs.length := by
  intro pairs
  induction pairs with
  | nil => intro st; simp
  | cons p rest ih =>
    intro st
    rw [List.foldl_cons]
    refine le_trans (ih _) ?_
    rw [regionStep]
    by_cases h : (alookup st.loopkey_to_new
        ((p.2, round6 (loopUV uvdata p.1).1, round6 (loopUV uvdata p.1).2))).isSome
    · simp only [if_pos h, List.length_cons]
      omega
    · simp only [if_neg h, List.length_append, List.length_cons]
      simp
      omega

theorem regionFold_lookup_mono (img_w img_h : ℚ) (uvdata : Option (List (ℚ × ℚ))) :
    ∀ (pairs : List (ℕ × ℕ)) (st : RegionState) (k : ℕ × ℚ × ℚ) (v : ℕ),
      alookup st.loopkey_to_new k = some v →
      alookup ((pairs.foldl (fun st p => regionStep img_w img_h uvdata st p.1 p.2)
        st).loopkey_to_new) k = some v := by
  intro pairs
  induction pairs with
  | nil => intro st k v h; simpa using h
  | cons p rest ih =>
    intro st k v h
    rw [List.foldl_cons]
    refine ih _ k v ?_
    rw [regionStep]
    by_cases hs : (alookup st.loopkey_to_new
        ((p.2, round6 (loopUV uvdata p.1).1, round6 (loopUV uvdata p.1).2))).isSome
    · simp only [if_pos hs]; exact h
    · simp only [if_neg hs]
      exact alookup_append_left _ h

theorem regionFold_covers (img_w img_h : ℚ) (uvdata : Option (List (ℚ × ℚ))) :
    ∀ (pairs : List (ℕ × ℕ)) (st : RegionState), ∀ p ∈ pairs,
      (alookup ((pairs.foldl (fun st p => regionStep img_w img_h uvdata st p.1 p.2)
        st).loopkey_to_new) (loopKey uvdata p.2 p.1)).isSome := by
  intro pairs
  induction pairs with
  | nil => intro st p hp; simp at hp
  | cons q rest ih =>
    intro st p hp
    rw [List.mem_cons] at hp
    rcases hp with rfl | hp
    · rw [List.foldl_cons]
      by_cases hs : (alookup st.loopkey_to_new
          ((p.2, round6 (loopUV uvdata p.1).1, round6 (loopUV uvdata p.1).2))).isSome
      · obtain ⟨v, hv⟩ := Option.isSome_iff_exists.mp hs
        have := regionFold_lookup_mono img_w img_h uvdata rest
          (regionStep img_w img_h uvdata st p.1 p.2) _ v
          (by rw [regionStep, if_pos hs]; exact hv)
        rw [loopKey]
        simp only [this]
        rfl
      · have hnone : alookup st.loopkey_to_new
            ((p.2, round6 (loopUV uvdata p.1).1, round6 (loopUV uvdata p.1).2)) = none :=
          Option.not_isSome_iff_eq_none.mp hs
        have hlook : alookup ((regionStep img_w img_h uvdata st p.1 p.2).loopkey_to_new)
            ((p.2, round6 (loopUV uvdata p.1).1, round6 (loopUV uvdata p.1).2)) =
            some st.loopkey_to_new.length := by
          rw [regionStep, if_neg hs]
          simp only []
          rw [alookup_append_none _ hnone]
          simp [alookup]
        have := regionFold_lookup_mono img_w img_h uvdata rest
          (regionStep img_w img_h uvdata st p.1 p.2) _ _ hlook
        rw [loopKey]
        simp only [this]
        rfl
    · rw [List.foldl_cons]
      exact ih _ p hp

/-- C6: `build_region_vertices_uvs` allocates at most one NEW index per
distinct `(vertex, rounded-UV)` key: the NEW index count is at most the
loop count, every loop's key is present in the final key map, and two
loops sharing a key necessarily map to the same NEW index. -/
theorem build_region_vertices_uvs_dedup (loops : List ℕ)
    (uvdata : Option (List (ℚ × ℚ))) (img_w img_h : ℚ) :
    (build_region_vertices_uvs loops uvdata img_w img_h).new_to_src.length ≤
      loops.length ∧
    (∀ p ∈ loops.enum,
      (alookup (build_region_vertices_uvs loops uvdata img_w img_h).loopkey_to_new
        (loopKey uvdata p.2 p.1)).isSome) ∧
    (∀ p q, p ∈ loops.enum → q ∈ loops.enum →
      loopKey uvdata p.2 p.1 = loopKey uvdata q.2 q.1 →
      alookup (build_region_vertices_uvs loops uvdata img_w img_h).loopkey_to_new
          (loopKey uvdata p.2 p.1) =
        alookup (build_region_vertices_uvs loops uvdata img_w img_h).loopkey_to_new
          (loopKey uvdata q.2 q.1)) := by
  refine ⟨?_, ?_, ?_⟩
  · have := regionFold_len img_w img_h uvdata loops.enum ⟨[], [], [], []⟩
    simpa [build_region_vertices_uvs] using this
  · intro p hp
    exact regionFold_covers img_w img_h uvdata loops.enum ⟨[], [], [], []⟩ p hp
  · intro p q _ _ hkey
    rw [hkey]

/-- Witness for C6: in a concrete two-loop mesh where both loops share the
same vertex and UV fallback, the shared key is present in the key map. -/
theorem build_region_vertices_uvs_dedup_witness :
    (alookup (build_region_vertices_uvs [5, 5] none 100 100).loopkey_to_new
      (loopKey none 5 0)).isSome :=
  (build_region_vertices_uvs_dedup [5, 5] none 100 100).2.1 (0, 5) (by decide)

theorem handles_to_curve_eq_iff (k_i k_j : Keyframe) (fps : ℚ)
    (xf : Option (ℚ → ℚ)) (c : List ℚ) :
    handles_to_curve_abs_seconds (some k_i) (some k_j) fps xf = some c ↔
      (k_i.interpolation = .bezier ∧ k_j.interpolation = .bezier ∧
       1 / 1000000000000 < |k_j.co.1 - k_i.co.1| ∧
       1 / 1000000000000 < |k_j.co.2 - k_i.co.2| ∧
       c = curve4 k_i k_j fps xf) := by
  rw [handles_to_curve_abs_seconds]
  simp only [qabs_eq_abs]
  by_cases h1 : k_i.interpolation ≠ .bezier ∨ k_j.interpolation ≠ .bezier
  · rw [if_pos h1]
    constructor
    · intro h; exact absurd h (by simp)
    · rintro ⟨ha, hb, -⟩
      rcases h1 with h | h
      · exact absurd ha h
      · exact absurd hb h
  · push_neg at h1
    rw [if_neg (by simpa using (fun h => h.elim (fun h => h h1.1) (fun h => h h1.2) :
      ¬(k_i.interpolation ≠ .bezier ∨ k_j.interpolation ≠ .bezier)))]
    by_cases h2 : |k_j.co.1 - k_i.co.1| ≤ 1 / 1000000000000
    · rw [if_pos h2]
      constructor
      · intro h; exact absurd h (by simp)
      · rintro ⟨-, -, h, -⟩; linarith
    · rw [if_neg h2]
      by_cases h3 : |k_j.co.2 - k_i.co.2| ≤ 1 / 1000000000000
      · rw [if_pos h3]
        constructor
        · intro h; exact absurd h (by simp)
        · rintro ⟨-, -, -, h, -⟩; linarith
      · rw [if_neg h3]
        constructor
        · intro h
          refine ⟨h1.1, h1.2, not_le.mp h2, not_le.mp h3, ?_⟩
          rw [curve4]
          exact (Option.some.inj h).symm
        · rintro ⟨-, -, -, -, rfl⟩
          rw [curve4]

theorem handles_to_curve_isSome_iff (k_i k_j : Keyframe) (fps : ℚ)
    (xf : Option (ℚ → ℚ)) :
    (handles_to_curve_abs_seconds (some k_i) (some k_j) fps xf).isSome ↔
      (k_i.interpolation = .bezier ∧ k_j.interpolation = .bezier ∧
       1 / 1000000000000 < |k_j.co.1 - k_i.co.1| ∧
       1 / 1000000000000 < |k_j.co.2 - k_i.co.2|) := by
  rw [Option.isSome_iff_exists]
  constructor
  · rintro ⟨c, hc⟩
    obtain ⟨h1, h2, h3, h4, -⟩ := (handles_to_curve_eq_iff _ _ _ _ _).mp hc
    exact ⟨h1, h2, h3, h4⟩
  · rintro ⟨h1, h2, h3, h4⟩
    exact ⟨curve4 k_i k_j fps xf,
      (handles_to_curve_eq_iff _ _ _ _ _).mpr ⟨h1, h2, h3, h4, rfl⟩⟩

theorem handles_to_curve_none_left (k : Option Keyframe) (fps : ℚ)
    (xf : Option (ℚ → ℚ)) : handles_to_curve_abs_seconds none k fps xf = none := by
  cases k <;> rfl

theorem handles_to_curve_none_right (k : Option Keyframe) (fps : ℚ)
    (xf : Option (ℚ → ℚ)) : handles_to_curve_abs_seconds k none fps xf = none := by
  cases k <;> rfl

theorem segment_curve_single_iff (fc0 : List Keyframe) (f nxt : ℤ) (fps : ℚ)
    (xforms : List (ℚ → ℚ)) (c : List ℚ) :
    segment_curve [fc0] f nxt fps xforms = some (.curve c) ↔
      ∃ k_i k_j : Keyframe,
        knot_lookup fc0 f = some k_i ∧ knot_lookup fc0 nxt = some k_j ∧
        k_i.interpolation = .bezier ∧ k_j.interpolation = .bezier ∧
        1 / 1000000000000 < |k_j.co.1 - k_i.co.1| ∧
        1 / 1000000000000 < |k_j.co.2 - k_i.co.2| ∧
        c = curve4 k_i k_j fps xforms.head? := by
  simp only [segment_curve]
  cases hki : knot_lookup fc0 f with
  | none =>
    rw [if_neg (by simp)]
    rw [handles_to_curve_none_left]
    simp
  | some k_i =>
    by_cases hconst : k_i.interpolation = .constant
    · rw [if_pos (by simp [hconst])]
      constructor
      · intro h; exact absurd h (by simp)
      · rintro ⟨a, b, ha, -, hbez, -⟩
        obtain rfl := Option.some.inj ha
        rw [hconst] at hbez; exact absurd hbez (by simp)
    · rw [if_neg (by simp [Option.map_some]; intro h; exact hconst h)]
      cases hkj : knot_lookup fc0 nxt with
      | none =>
        rw [handles_to_curve_none_right]
        simp
      | some k_j =>
        cases hc : handles_to_curve_abs_seconds (some k_i) (some k_j) fps xforms.head? with
        | none =>
          simp only []
          constructor
          · intro h; exact absurd h (by simp)
          · rintro ⟨a, b, ha, hb, h1, h2, h3, h4, rfl⟩
            obtain rfl := Option.some.inj ha
            obtain rfl := Option.some.inj hb
            rw [(handles_to_curve_eq_iff _ _ _ _ _).mpr ⟨h1, h2, h3, h4, rfl⟩] at hc
            exact absurd hc (by simp)
        | some c0 =>
          simp only []
          obtain ⟨h1, h2, h3, h4, rfl⟩ := (handles_to_curve_eq_iff _ _ _ _ _).mp hc
          constructor
          · intro h
            simp only [Option.some.injEq, CurveTag.curve.injEq] at h
            subst h
            exact ⟨k_i, k_j, rfl, rfl, h1, h2, h3, h4, rfl⟩
          · rintro ⟨a, b, ha, hb, g1, g2, g3, g4, rfl⟩
            obtain rfl := Option.some.inj ha
            obtain rfl := Option.some.inj hb
            rfl

theorem segment_curve_pair_iff (fc0 fc1 : List Keyframe) (rest : List (List Keyframe))
    (f nxt : ℤ) (fps : ℚ) (xforms : List (ℚ → ℚ)) (c : List ℚ) :
    segment_curve (fc0 :: fc1 :: rest) f nxt fps xforms = some (.curve c) ↔
      ∃ kix kjx kiy kjy : Keyframe,
        knot_lookup fc0 f = some kix ∧ knot_lookup fc0 nxt = some kjx ∧
        knot_lookup fc1 f = some kiy ∧ knot_lookup fc1 nxt = some kjy ∧
        kix.interpolation = .bezier ∧ kjx.interpolation = .bezier ∧
        kiy.interpolation = .bezier ∧ kjy.interpolation = .bezier ∧
        1 / 1000000000000 < |kjx.co.1 - kix.co.1| ∧
        1 / 1000000000000 < |kjx.co.2 - kix.co.2| ∧
        1 / 1000000000000 < |kjy.co.1 - kiy.co.1| ∧
        1 / 1000000000000 < |kjy.co.2 - kiy.co.2| ∧
        c = curve4 kix kjx fps xforms.head? ++ curve4 kiy kjy fps (xforms.get? 1) := by
  simp only [segment_curve]
  cases hki : knot_lookup fc0 f with
  | none =>
    rw [if_neg (by simp)]
    rw [handles_to_curve_none_left]
    simp
  | some kix =>
    by_cases hconst : kix.interpolation = .constant
    · rw [if_pos (by simp [hconst])]
      constructor
      · intro h; exact absurd h (by simp)
      · rintro ⟨a, b, a2, b2, ha, -, -, -, hbez, -⟩
        obtain rfl := Option.some.inj ha
        rw [hconst] at hbez; exact absurd hbez (by simp)
    · rw [if_neg (by simp [Option.map_some]; intro h; exact hconst h)]
      cases hkjx : knot_lookup fc0 nxt with
      | none =>
        rw [handles_to_curve_none_right]
        simp
      | some kjx =>
        cases hcx : handles_to_curve_abs_seconds (some kix) (some kjx) fps
            xforms.head? with
        | none =>
          simp only []
          constructor
          · intro h
            exact absurd h (by simp)
          · rintro ⟨a, b, a2, b2, ha, hb, -, -, g1, g2, -, -, g5, g6, -, -, rfl⟩
            obtain rfl := Option.some.inj ha
            obtain rfl := Option.some.inj hb
            rw [(handles_to_curve_eq_iff _ _ _ _ _).mpr ⟨g1, g2, g5, g6, rfl⟩] at hcx
            exact absurd hcx (by simp)
        | some cx =>
          obtain ⟨h1, h2, h3, h4, rfl⟩ := (handles_to_curve_eq_iff _ _ _ _ _).mp hcx
          cases hkiy : knot_lookup fc1 f with
          | none =>
            rw [handles_to_curve_none_left]
            simp only []
            constructor
            · intro h; exact absurd h (by simp)
            · rintro ⟨a, b, a2, b2, -, -, ha2, -⟩
              exact absurd ha2 (by simp)
          | some kiy =>
            cases hkjy : knot_lookup fc1 nxt with
            | none =>
              rw [handles_to_curve_none_right]
              simp only []
              constructor
              · intro h; exact absurd h (by simp)
              · rintro ⟨a, b, a2, b2, -, -, -, hb2, -⟩
                exact absurd hb2 (by simp)
            | some kjy =>
              cases hcy : handles_to_curve_abs_seconds (some kiy) (some kjy) fps
                  (xforms.get? 1) with
              | none =>
                simp only []
                constructor
                · intro h; exact absurd h (by simp)
                · rintro ⟨a, b, a2, b2, ha, hb, ha2, hb2, -, -, g7, g8, -, -, g11, g12, rfl⟩
                  obtain rfl := Option.some.inj ha2
                  obtain rfl := Option.some.inj hb2
                  rw [(handles_to_curve_eq_iff _ _ _ _ _).mpr ⟨g7, g8, g11, g12, rfl⟩] at hcy
                  exact absurd hcy (by simp)
              | some cy =>
                obtain ⟨g1, g2, g3, g4, rfl⟩ := (handles_to_curve_eq_iff _ _ _ _ _).mp hcy
                simp only []
                constructor
                · intro h
                  simp only [Option.some.injEq, CurveTag.curve.injEq] at h
                  subst h
                  exact ⟨kix, kjx, kiy, kjy, rfl, rfl, rfl, rfl,
                    h1, h2, g1, g2, h3, h4, g3, g4, rfl⟩
                · rintro ⟨a, b, a2, b2, ha, hb, ha2, hb2, -, -, -, -, -, -, -, -, rfl⟩
                  obtain rfl := Option.some.inj ha
                  obtain rfl := Option.some.inj hb
                  obtain rfl := Option.some.inj ha2
                  obtain rfl := Option.some.inj hb2
                  rfl

/-- C7: a Bezier curve array is attached to a segment's keyframe record
iff both endpoint keyframes of the segment are BEZIER, their raw values
differ by more than 1e-12 and the frame span exceeds 1e-12; a single
channel yields the 4-number `[cx1, cy1, cx2, cy2]` array, and two
channels yield the X-channel 4-number array concatenated before the
Y-channel array (8 numbers), emitted only when both per-channel curves
satisfy the conditions. -/
theorem curve_emission_spec :
    (∀ (k_i k_j : Keyframe) (fps : ℚ) (xf : Option (ℚ → ℚ)),
      (handles_to_curve_abs_seconds (some k_i) (some k_j) fps xf).isSome ↔
        (k_i.interpolation = .bezier ∧ k_j.interpolation = .bezier ∧
         1 / 1000000000000 < |k_j.co.1 - k_i.co.1| ∧
         1 / 1000000000000 < |k_j.co.2 - k_i.co.2|)) ∧
    (∀ (fc0 : List Keyframe) (f nxt : ℤ) (fps : ℚ) (xforms : List (ℚ → ℚ))
        (c : List ℚ),
      segment_curve [fc0] f nxt fps xforms = some (.curve c) ↔
        ∃ k_i k_j : Keyframe,
          knot_lookup fc0 f = some k_i ∧ knot_lookup fc0 nxt = some k_j ∧
          k_i.interpolation = .bezier ∧ k_j.interpolation = .bezier ∧
          1 / 1000000000000 < |k_j.co.1 - k_i.co.1| ∧
          1 / 1000000000000 < |k_j.co.2 - k_i.co.2| ∧
          c = curve4 k_i k_j fps xforms.head?) ∧
    (∀ (fc0 fc1 : List Keyframe) (rest : List (List Keyframe)) (f nxt : ℤ)
        (fps : ℚ) (xforms : List (ℚ → ℚ)) (c : List ℚ),
      segment_curve (fc0 :: fc1 :: rest) f nxt fps xforms = some (.curve c) ↔
        ∃ kix kjx kiy kjy : Keyframe,
          knot_lookup fc0 f = some kix ∧ knot_lookup fc0 nxt = some kjx ∧
          knot_lookup fc1 f = some kiy ∧ knot_lookup fc1 nxt = some kjy ∧
          kix.interpolation = .bezier ∧ kjx.interpolation = .bezier ∧
          kiy.interpolation = .bezier ∧ kjy.interpolation = .bezier ∧
          1 / 1000000000000 < |kjx.co.1 - kix.co.1| ∧
          1 / 1000000000000 < |kjx.co.2 - kix.co.2| ∧
          1 / 1000000000000 < |kjy.co.1 - kiy.co.1| ∧
          1 / 1000000000000 < |kjy.co.2 - kiy.co.2| ∧
          c = curve4 kix kjx fps xforms.head? ++
              curve4 kiy kjy fps (xforms.get? 1)) :=
  ⟨handles_to_curve_isSome_iff, segment_curve_single_iff, segment_curve_pair_iff⟩

/-- Counterexample to C8 as stated: with keyframe angles `[0, 10]`, the
near-zero keyframe is NOT omitted from the rotate timeline — the returned
timeline still has both records, the first kept with no `value` field. -/
theorem rotate_postprocess_keeps_near_zero_counterexample :
    rotate_postprocess [⟨0, [0], none, none⟩, ⟨1, [10], none, none⟩] =
      some [⟨0, [], none, none⟩, ⟨1, [], none, some 10⟩] ∧
    (rotate_postprocess [⟨0, [0], none, none⟩, ⟨1, [10], none, none⟩]).map
        List.length = some 2 := by
  have h : rotate_postprocess [⟨0, [0], none, none⟩, ⟨1, [10], none, none⟩] =
      some [⟨0, [], none, none⟩, ⟨1, [], none, some 10⟩] := by
    rw [rotate_postprocess]
    norm_num [qabs, List.getD]
  exact ⟨h, by rw [h]; rfl⟩

/-- C8 (amended): a keyframe record carries its `value` exactly when the
transformed angle's magnitude exceeds 1e-9; records with near-zero angles
are kept in the timeline without a `value` field (the record count is
preserved), and the whole rotate timeline is omitted only when every
keyframe's angle magnitude is at most 1e-9. -/
theorem rotate_postprocess_spec (keys : List TimelineKey)
    (hv : ∀ k ∈ keys, k.value = none) :
    (rotate_postprocess keys = none ↔
      ∀ k ∈ keys, |k.vals.getD 0 0| ≤ 1 / 1000000000) ∧
    (∀ l, rotate_postprocess keys = some l →
      l.length = keys.length ∧
      (∀ (i : ℕ) (hi : i < keys.length) (hl : i < l.length),
        (l.get ⟨i, hl⟩).value =
          (if 1 / 1000000000 < |(keys.get ⟨i, hi⟩).vals.getD 0 0|
           then some ((keys.get ⟨i, hi⟩).vals.getD 0 0) else none))) := by
  simp only [← qabs_eq_abs]
  by_cases hany : keys.any
      (fun k => decide ((1 : ℚ) / 1000000000 < qabs (k.vals.getD 0 0))) = true
  · constructor
    · rw [rotate_postprocess]
      simp only [hany, if_true]
      constructor
      · intro h; exact absurd h (by simp)
      · intro hall
        rw [List.any_eq_true] at hany
        obtain ⟨k, hk, hkgt⟩ := hany
        have := hall k hk
        rw [decide_eq_true_iff] at hkgt
        linarith
    · intro l hl
      rw [rotate_postprocess] at hl
      simp only [hany, if_true] at hl
      obtain rfl := (Option.some.inj hl).symm
      constructor
      · exact List.length_map _ _
      · intro i hi hlen
        simp only [List.get_eq_getElem, List.getElem_map]
        by_cases hcond : 1 / 1000000000 < qabs ((keys[i]).vals.getD 0 0)
        · rw [if_pos hcond, if_pos hcond]
        · rw [if_neg hcond, if_neg hcond]
          show (keys[i]).value = none
          exact hv _ (List.getElem_mem hi)
  · constructor
    · rw [rotate_postprocess]
      simp only [hany, if_false]
      constructor
      · intro _
        intro k hk
        rw [List.any_eq_true] at hany
        push_neg at hany
        have := hany k hk
        simp only [ne_eq, decide_eq_true_eq] at this
        exact not_lt.mp this
      · intro _; rfl
    · intro l hl
      rw [rotate_postprocess] at hl
      simp only [hany, if_false] at hl
      exact absurd hl (by simp)

/-- Witness for C8 (amended): at a concrete one-record timeline with angle
5, the record count is preserved. -/
theorem rotate_postprocess_spec_witness :
    ([⟨(0 : ℚ), [], none, some 5⟩] : List TimelineKey).length =
      ([⟨(0 : ℚ), [5], none, none⟩] : List TimelineKey).length :=
  ((rotate_postprocess_spec [⟨0, [5], none, none⟩] (by decide)).2
    [⟨0, [], none, some 5⟩] (by rw [rotate_postprocess]; norm_num [qabs, List.getD])).1

theorem by_array_index_isSome (fcs : List FCurve) (i : ℕ) :
    (by_array_index fcs i).isSome ↔ ∃ fc ∈ fcs, fc.array_index = i := by
  rw [by_array_index, List.getLast?_isSome, Ne, List.filter_eq_nil_iff]
  push_neg
  simp

theorem channel_pair_length_two (fcs : List FCurve) (ix iy : ℕ) :
    ((channel_pair fcs ix iy).length = 2) ↔
      ((by_array_index fcs ix).isSome ∧ (by_array_index fcs iy).isSome) := by
  rw [channel_pair]
  rcases by_array_index fcs ix with - | a <;>
    rcases by_array_index fcs iy with - | b <;> simp

theorem whitelist_exists_iff (fcs : List FCurve) (wl : List ℕ) (i : ℕ)
    (hi : i ∈ wl) :
    (∃ fc ∈ fcurves_whitelist fcs wl, fc.array_index = i) ↔
      ∃ fc ∈ fcs, fc.array_index = i := by
  rw [fcurves_whitelist]
  constructor
  · rintro ⟨fc, hfc, hidx⟩
    exact ⟨fc, List.mem_of_mem_filter hfc, hidx⟩
  · rintro ⟨fc, hfc, hidx⟩
    exact ⟨fc, List.mem_filter.mpr ⟨hfc, by simp [hidx, hi]⟩, hidx⟩

/-- C10: `build_animations` writes a `translate` timeline for a bone iff
location F-curves exist for both mapped array indices 1 and 0 (and some
keyframe exists), and a `scale` timeline iff scale F-curves exist for both
mapped indices 0 and 2 (and some keyframe exists); in particular, when
exactly one channel of a pair is keyed, no timeline of that kind is
produced. -/
theorem translate_scale_pair_gating (loc_fc scl_fc : List FCurve) :
    (translate_emitted loc_fc = true ↔
      ((∃ fc ∈ loc_fc, fc.array_index = 1) ∧ (∃ fc ∈ loc_fc, fc.array_index = 0) ∧
        emit_has_keys (loc_pair loc_fc) = true)) ∧
    (scale_emitted scl_fc = true ↔
      ((∃ fc ∈ scl_fc, fc.array_index = 0) ∧ (∃ fc ∈ scl_fc, fc.array_index = 2) ∧
        emit_has_keys (scale_pair scl_fc) = true)) := by
  constructor
  · rw [translate_emitted, Bool.and_eq_true, beq_iff_eq, loc_pair,
      channel_pair_length_two, by_array_index_isSome, by_array_index_isSome,
      whitelist_exists_iff _ _ _ (by simp), whitelist_exists_iff _ _ _ (by simp)]
    tauto
  · rw [scale_emitted, Bool.and_eq_true, beq_iff_eq, scale_pair,
      channel_pair_length_two, by_array_index_isSome, by_array_index_isSome,
      whitelist_exists_iff _ _ _ (by simp), whitelist_exists_iff _ _ _ (by simp)]
    tauto

/-- Witness for C2 at a concrete edge list and vertex count. -/
theorem encode_spine_edges_valid_witness :
    validate_attachment_edges (encode_spine_edges [0, 1] (2 : ℤ)) [0, 0, 0, 0] = .ok () := by
  have h := (encode_spine_edges_valid [0, 1] 2 [0, 0, 0, 0] (by norm_num) (by simp)).2.2
  exact_mod_cast h

theorem mem_insertLex {x p : ℤ × ℤ} {l : List (ℤ × ℤ)} :
    x ∈ insertLex p l ↔ x = p ∨ x ∈ l := by
  induction l with
  | nil => simp [insertLex]
  | cons q rest ih =>
    rw [insertLex]
    by_cases h : lexLe p q = true
    · simp [h]
    · simp only [Bool.not_eq_true] at h
      simp only [h, Bool.false_eq_true, if_false, List.mem_cons, ih]
      tauto

theorem insertLex_perm (p : ℤ × ℤ) (l : List (ℤ × ℤ)) :
    List.Perm (insertLex p l) (p :: l) := by
  induction l with
  | nil => rfl
  | cons q rest ih =>
    rw [insertLex]
    by_cases h : lexLe p q = true
    · simp [h]
    · simp only [Bool.not_eq_true] at h
      simp only [h, Bool.false_eq_true, if_false]
      exact (List.Perm.cons q ih).trans (List.Perm.swap p q rest)

theorem sortPairs_perm (l : List (ℤ × ℤ)) : List.Perm (sortPairs l) l := by
  induction l with
  | nil => rfl
  | cons p rest ih =>
    rw [sortPairs]
    exact (insertLex_perm p (sortPairs rest)).trans (List.Perm.cons p ih)

theorem mem_dedupFirst {α : Type} [DecidableEq α] {x : α} :
    ∀ {l seen : List α}, x ∈ dedupFirst l seen ↔ x ∈ l ∧ x ∉ seen := by
  intro l
  induction l with
  | nil => intro seen; simp [dedupFirst]
  | cons y rest ih =>
    intro seen
    rw [dedupFirst]
    by_cases hy : y ∈ seen
    · rw [if_pos hy, ih]
      constructor
      · rintro ⟨hx, hs⟩
        exact ⟨List.mem_cons_of_mem _ hx, hs⟩
      · rintro ⟨hx, hs⟩
        rw [List.mem_cons] at hx
        rcases hx with rfl | hx
        · exact absurd hy hs
        · exact ⟨hx, hs⟩
    · rw [if_neg hy, List.mem_cons, ih]
      constructor
      · rintro (rfl | ⟨hx, hs⟩)
        · exact ⟨List.mem_cons_self .., hy⟩
        · constructor
          · exact List.mem_cons_of_mem _ hx
          · intro hc
            exact hs (List.mem_cons_of_mem _ hc)
      · rintro ⟨hx, hs⟩
        rw [List.mem_cons] at hx
        rcases hx with rfl | hx
        · exact Or.inl rfl
        · by_cases hxy : x = y
          · exact Or.inl hxy
          · right
            refine ⟨hx, fun hc => ?_⟩
            rw [List.mem_cons] at hc
            rcases hc with hc | hc
            · exact hxy hc
            · exact hs hc

theorem nodup_dedupFirst {α : Type} [DecidableEq α] :
    ∀ (l seen : List α), (dedupFirst l seen).Nodup := by
  intro l
  induction l with
  | nil => intro seen; simp [dedupFirst]
  | cons y rest ih =>
    intro seen
    rw [dedupFirst]
    by_cases hy : y ∈ seen
    · rw [if_pos hy]; exact ih seen
    · rw [if_neg hy]
      refine List.Nodup.cons ?_ (ih (y :: seen))
      intro hc
      exact (mem_dedupFirst.mp hc).2 (List.mem_cons_self ..)

theorem triEdgeList_canonical :
    ∀ (l : List (ℤ × ℤ × ℤ)) (e : ℤ × ℤ), e ∈ triEdgeList l → e.1 ≤ e.2 := by
  intro l
  induction l with
  | nil => intro e he; simp [triEdgeList] at he
  | cons t rest ih =>
    obtain ⟨a, b, c⟩ := t
    intro e he
    have hcanon : ∀ x y : ℤ, (canonEdge x y).1 ≤ (canonEdge x y).2 := by
      intro x y
      rw [canonEdge]
      by_cases h : x < y
      · rw [if_pos h]; exact le_of_lt h
      · rw [if_neg h]; exact not_lt.mp h
    simp only [triEdgeList, List.mem_cons] at he
    rcases he with he | he | he | he
    · rw [he]; exact hcanon a b
    · rw [he]; exact hcanon b c
    · rw [he]; exact hcanon c a
    · exact ih e he

theorem sanitizeLoop_id :
    ∀ (l seen : List (ℤ × ℤ)), (∀ p ∈ l, p.1 < p.2) → l.Nodup →
      (∀ p ∈ l, p ∉ seen) → sanitizeLoop l seen = l := by
  intro l
  induction l with
  | nil => intro seen _ _ _; rfl
  | cons p rest ih =>
    intro seen hlt hnd hseen
    obtain ⟨a, b⟩ := p
    have hab : a < b := hlt (a, b) (List.mem_cons_self ..)
    rw [sanitizeLoop, if_neg (ne_of_lt hab), if_pos hab,
      if_neg (hseen (a, b) (List.mem_cons_self ..))]
    congr 1
    refine ih ((a, b) :: seen) (fun q hq => hlt q (List.mem_cons_of_mem _ hq))
      (List.Nodup.of_cons hnd) ?_
    intro q hq hqs
    rw [List.mem_cons] at hqs
    rcases hqs with rfl | hqs
    · exact (List.nodup_cons.mp hnd).1 hq
    · exact hseen q (List.mem_cons_of_mem _ hq) hqs

theorem length_flattenPairs {α : Type} (l : List (α × α)) :
    (flattenPairs l).length = 2 * l.length := by
  induction l with
  | nil => rfl
  | cons p rest ih =>
    obtain ⟨a, b⟩ := p
    rw [flattenPairs]
    simp [ih]
    ring

theorem sanitize_pairs_canonical (l : List (ℤ × ℤ)) (v : ℤ)
    (hlt : ∀ p ∈ l, 0 ≤ p.1 ∧ p.1 < p.2 ∧ p.2 < v) (hnd : l.Nodup) :
    sanitize_pairs (flattenPairs l) v = flattenPairs l := by
  rw [sanitize_pairs]
  have hfilter : (flattenPairs l).filter
      (fun x => decide (0 ≤ x) && decide (x < max 0 v)) = flattenPairs l := by
    rw [List.filter_eq_self]
    intro x hx
    obtain ⟨p, hp, hxp⟩ := mem_flattenPairs.mp hx
    obtain ⟨h0, h1, h2⟩ := hlt p hp
    have hx0 : 0 ≤ x := by rcases hxp with rfl | rfl; exacts [h0, le_of_lt (lt_of_le_of_lt h0 h1)]
    have hxv : x < v := by rcases hxp with rfl | rfl; exacts [lt_trans h1 h2, h2]
    simp only [Bool.and_eq_true, decide_eq_true_eq]
    exact ⟨hx0, lt_of_lt_of_le hxv (le_max_right 0 v)⟩
  rw [hfilter, length_flattenPairs]
  rw [if_neg (by omega)]
  rw [flattenPairs_toPairs]
  rw [sanitizeLoop_id l [] (fun p hp => (hlt p hp).2.1) hnd (by simp)]

/-- C9: in `"boundary"` mode, `build_edges_from_tris_and_manual` returns
exactly the undirected triangle edges of multiplicity 1 — canonical
`a < b` pairs with indices in `[0, vcount)` and no self-loops; a quad of
4 vertices triangulated into triangles `(0,1,2)` and `(0,2,3)` yields
exactly the 4 perimeter edges and excludes the shared diagonal `(0,2)`
of multiplicity 2. -/
theorem build_edges_boundary_spec (tris : List ℤ) (v : ℤ)
    (h3 : tris.length % 3 = 0) :
    (∀ a b : ℤ, ((a, b) ∈ toPairs (build_edges_boundary tris v) ↔
      (0 ≤ a ∧ a < b ∧ b < v ∧
        (triEdgeList (toTriples tris)).count (a, b) = 1))) ∧
    build_edges_boundary [0, 1, 2, 0, 2, 3] 4 = [0, 1, 0, 3, 1, 2, 2, 3] := by
  constructor
  · intro a b
    by_cases htris : tris = []
    · subst htris
      simp [build_edges_boundary, sanitize_pairs, sortPairs, flattenPairs,
        sanitizeLoop, toPairs, toTriples, triEdgeList]
    · rw [build_edges_boundary]
      simp only [if_neg htris]
      set bd := tri_boundary_edges_from_tris tris with hbd
      set ep := dedupFirst (bd.filterMap (fun e =>
        if 0 ≤ e.1 ∧ e.1 < v ∧ 0 ≤ e.2 ∧ e.2 < v ∧ e.1 ≠ e.2 then
          some (canonEdge e.1 e.2)
        else none)) [] with hep
      have hbd_canon : ∀ e ∈ bd, e.1 ≤ e.2 := by
        intro e he
        rw [hbd, tri_boundary_edges_from_tris] at he
        have he2 := List.mem_of_mem_filter he
        exact triEdgeList_canonical _ e (mem_dedupFirst.mp he2).1
      have hep_mem : ∀ p : ℤ × ℤ, p ∈ ep ↔
          (p ∈ bd ∧ 0 ≤ p.1 ∧ p.1 < p.2 ∧ p.2 < v) := by
        intro p
        rw [hep, mem_dedupFirst]
        simp only [List.not_mem_nil, not_false_eq_true, and_true]
        rw [List.mem_filterMap]
        constructor
        · rintro ⟨e, he, hee⟩
          by_cases hc : 0 ≤ e.1 ∧ e.1 < v ∧ 0 ≤ e.2 ∧ e.2 < v ∧ e.1 ≠ e.2
          · rw [if_pos hc] at hee
            obtain rfl := Option.some.inj hee
            have hle := hbd_canon e he
            have hlt : e.1 < e.2 := lt_of_le_of_ne hle hc.2.2.2.2
            rw [canonEdge, if_pos hlt]
            exact ⟨he, hc.1, hlt, hc.2.2.2.1⟩
          · rw [if_neg hc] at hee
            exact absurd hee (by simp)
        · rintro ⟨hp, h0, hlt, hv⟩
          refine ⟨p, hp, ?_⟩
          rw [if_pos ⟨h0, lt_trans hlt hv, le_trans h0 (le_of_lt hlt), hv,
            ne_of_lt hlt⟩]
          rw [canonEdge, if_pos hlt]
      have hep_lt : ∀ p ∈ sortPairs ep, 0 ≤ p.1 ∧ p.1 < p.2 ∧ p.2 < v := by
        intro p hp
        have := (hep_mem p).mp ((sortPairs_perm ep).mem_iff.mp hp)
        exact this.2
      have hep_nd : (sortPairs ep).Nodup :=
        ((sortPairs_perm ep).nodup_iff).mpr (hep ▸ nodup_dedupFirst _ _)
      rw [sanitize_pairs_canonical _ _ hep_lt hep_nd, flattenPairs_toPairs]
      rw [(sortPairs_perm ep).mem_iff, hep_mem]
      rw [hbd, tri_boundary_edges_from_tris]
      constructor
      · rintro ⟨hmem, h0, hlt, hv⟩
        have hc := List.of_mem_filter hmem
        rw [decide_eq_true_eq] at hc
        exact ⟨h0, hlt, hv, hc⟩
      · rintro ⟨h0, hlt, hv, hcount⟩
        refine ⟨?_, h0, hlt, hv⟩
        refine List.mem_filter.mpr ⟨?_, by simpa using hcount⟩
        rw [mem_dedupFirst]
        refine ⟨?_, by simp⟩
        have : 0 < (triEdgeList (toTriples tris)).count (a, b) := by omega
        exact List.count_pos_iff.mp this
  · decide

/-- Witness for C9: the membership characterization applied at the quad,
showing edge `(0, 1)` is a boundary edge of the quad triangulation. -/
theorem build_edges_boundary_spec_witness :
    ((0 : ℤ), (1 : ℤ)) ∈ toPairs (build_edges_boundary [0, 1, 2, 0, 2, 3] 4) :=
  ((build_edges_boundary_spec [0, 1, 2, 0, 2, 3] 4 (by decide)).1 0 1).mpr
    (by decide)

theorem tri_area2_swap (pts : List (ℚ × ℚ)) (a b c : ℕ) :
    tri_area2_xy pts a c b = -tri_area2_xy pts a b c := by
  rw [tri_area2_xy, tri_area2_xy]
  ring

theorem remapTris_pos (region2 : List (ℚ × ℚ)) (o2n : ℕ → ℕ) :
    ∀ (l : List (ℕ × ℕ × ℕ)), ∀ t ∈ toTriples (remapTris region2 o2n l),
      0 < tri_area2_xy region2 t.1 t.2.1 t.2.2 := by
  intro l
  induction l with
  | nil => intro t ht; simp [remapTris, toTriples] at ht
  | cons tri rest ih =>
    obtain ⟨a, b, c⟩ := tri
    intro t ht
    simp only [remapTris] at ht
    by_cases h1 : qabs (tri_area2_xy region2 (o2n a) (o2n b) (o2n c)) < 1 / 1000000000
    · rw [if_pos h1] at ht
      exact ih t ht
    · rw [if_neg h1] at ht
      by_cases h2 : tri_area2_xy region2 (o2n a) (o2n b) (o2n c) < 0
      · rw [if_pos h2, toTriples, List.mem_cons] at ht
        rcases ht with rfl | ht
        · show 0 < tri_area2_xy region2 (o2n a) (o2n c) (o2n b)
          rw [tri_area2_swap]
          linarith
        · exact ih t ht
      · rw [if_neg h2, toTriples, List.mem_cons] at ht
        rcases ht with rfl | ht
        · show 0 < tri_area2_xy region2 (o2n a) (o2n b) (o2n c)
          have hq : qabs (tri_area2_xy region2 (o2n a) (o2n b) (o2n c)) =
              tri_area2_xy region2 (o2n a) (o2n b) (o2n c) := by
            rw [qabs, if_neg h2]
          rw [hq] at h1
          have : (0 : ℚ) < 1 / 1000000000 := by norm_num
          linarith [not_lt.mp h1]
        · exact ih t ht

/-- C1 (amended): every triangle produced by the triangle-remap path of
`hull_first_reorder` has strictly positive signed area with respect to the
returned region coordinates; the fan-triangulation fallback, by contrast,
emits its triangles without winding correction, so the winding invariant
is guaranteed only when the fallback does not fire (i.e. when at least one
remapped triangle survives). -/
theorem hull_first_reorder_remap_winding (region : List (ℚ × ℚ)) (uvs : List ℚ)
    (new_to_src : List (ℕ × ℕ)) (triangles : List ℕ)
    (hfired : hfr_remapped region triangles ≠ []) :
    ∀ t ∈ toTriples ((hull_first_reorder region uvs new_to_src triangles).2.2.2.1),
      0 < tri_area2_xy (hull_first_reorder region uvs new_to_src triangles).1
        t.1 t.2.1 t.2.2 := by
  intro t ht
  have h1 : (hull_first_reorder region uvs new_to_src triangles).2.2.2.1 =
      hfr_remapped region triangles := by
    show (if hfr_remapped region triangles = [] ∧
        (hfr_region2 region).length ≥ 3 then
      fanTris (hfr_region2 region).length
    else hfr_remapped region triangles) = hfr_remapped region triangles
    rw [if_neg (fun hc => hfired hc.1)]
  have h2 : (hull_first_reorder region uvs new_to_src triangles).1 =
      hfr_region2 region := rfl
  rw [h1, hfr_remapped] at ht
  rw [h2]
  exact remapTris_pos _ _ _ t ht

/-- Counterexample to C1 as stated: three clockwise region points with an
empty triangle list trigger the fan-triangulation fallback, whose single
triangle `(0, 1, 2)` has signed area `-1 < 0` — not strictly positive. -/
theorem hull_first_reorder_fan_winding_counterexample :
    (hull_first_reorder [(0, 0), (0, 1), (1, 0)] [0, 0, 0, 0, 0, 0]
        [(0, 0), (1, 1), (2, 2)] []).2.2.2.1 = [0, 1, 2] ∧
    tri_area2_xy (hull_first_reorder [(0, 0), (0, 1), (1, 0)] [0, 0, 0, 0, 0, 0]
        [(0, 0), (1, 1), (2, 2)] []).1 0 1 2 = -1 ∧
    ¬(0 < tri_area2_xy (hull_first_reorder [(0, 0), (0, 1), (1, 0)]
        [0, 0, 0, 0, 0, 0] [(0, 0), (1, 1), (2, 2)] []).1 0 1 2) := by
  have hreg : (hull_first_reorder [(0, 0), (0, 1), (1, 0)] [0, 0, 0, 0, 0, 0]
      [(0, 0), (1, 1), (2, 2)] []).1 = [((0 : ℚ), (0 : ℚ)), (0, 1), (1, 0)] := by
    decide
  have g0 : ([((0 : ℚ), (0 : ℚ)), (0, 1), (1, 0)] : List (ℚ × ℚ)).getD 0 (0, 0) =
      ((0 : ℚ), (0 : ℚ)) := rfl
  have g1 : ([((0 : ℚ), (0 : ℚ)), (0, 1), (1, 0)] : List (ℚ × ℚ)).getD 1 (0, 0) =
      ((0 : ℚ), (1 : ℚ)) := rfl
  have g2 : ([((0 : ℚ), (0 : ℚ)), (0, 1), (1, 0)] : List (ℚ × ℚ)).getD 2 (0, 0) =
      ((1 : ℚ), (0 : ℚ)) := rfl
  have harea : tri_area2_xy (hull_first_reorder [(0, 0), (0, 1), (1, 0)]
      [0, 0, 0, 0, 0, 0] [(0, 0), (1, 1), (2, 2)] []).1 0 1 2 = -1 := by
    rw [tri_area2_xy, hreg]
    simp only [g0, g1, g2]
    norm_num
  refine ⟨by decide, harea, ?_⟩
  rw [harea]
  norm_num

/-- Witness for C1 (amended) at a concrete CCW triangle whose remap path
fires. -/
theorem hull_first_reorder_remap_winding_witness :
    0 < tri_area2_xy (hull_first_reorder [(0, 0), (1, 0), (0, 1)]
        [0, 0, 0, 0, 0, 0] [(0, 0), (1, 1), (2, 2)] [0, 1, 2]).1 0 1 2 := by
  have hreg : hfr_region2 [(0, 0), (1, 0), (0, 1)] = [(0, 0), (1, 0), (0, 1)] := by
    decide
  have hno : hfr_new_order [(0, 0), (1, 0), (0, 1)] = [0, 1, 2] := by decide
  have harea : tri_area2_xy [(0 : ℚ × ℚ), (1, 0), (0, 1)] 0 1 2 = 1 := by
    have g0 : ([(0 : ℚ × ℚ), (1, 0), (0, 1)]).getD 0 (0, 0) = (0 : ℚ × ℚ) := rfl
    have g1 : ([(0 : ℚ × ℚ), (1, 0), (0, 1)]).getD 1 (0, 0) = ((1 : ℚ), (0 : ℚ)) := rfl
    have g2 : ([(0 : ℚ × ℚ), (1, 0), (0, 1)]).getD 2 (0, 0) = ((0 : ℚ), (1 : ℚ)) := rfl
    rw [tri_area2_xy]
    simp only [g0, g1, g2]
    norm_num
  have hr : hfr_remapped [(0, 0), (1, 0), (0, 1)] [0, 1, 2] = [0, 1, 2] := by
    rw [hfr_remapped, hreg, hno]
    show remapTris [(0, 0), (1, 0), (0, 1)]
      (old_to_new_fn [0, 1, 2]) [(0, 1, 2)] = [0, 1, 2]
    have f0 : old_to_new_fn [0, 1, 2] 0 = 0 := rfl
    have f1 : old_to_new_fn [0, 1, 2] 1 = 1 := rfl
    have f2 : old_to_new_fn [0, 1, 2] 2 = 2 := rfl
    norm_num [remapTris, f0, f1, f2, harea, qabs, Prod.mk_zero_zero]
  have ht : ((0 : ℕ), (1 : ℕ), (2 : ℕ)) ∈ toTriples ((hull_first_reorder
      [(0, 0), (1, 0), (0, 1)] [0, 0, 0, 0, 0, 0] [(0, 0), (1, 1), (2, 2)]
      [0, 1, 2]).2.2.2.1) := by
    have : (hull_first_reorder [(0, 0), (1, 0), (0, 1)] [0, 0, 0, 0, 0, 0]
        [(0, 0), (1, 1), (2, 2)] [0, 1, 2]).2.2.2.1 = [0, 1, 2] := by
      show (if hfr_remapped [(0, 0), (1, 0), (0, 1)] [0, 1, 2] = [] ∧
          (hfr_region2 [(0, 0), (1, 0), (0, 1)]).length ≥ 3 then
        fanTris (hfr_region2 [(0, 0), (1, 0), (0, 1)]).length
      else hfr_remapped [(0, 0), (1, 0), (0, 1)] [0, 1, 2]) = [0, 1, 2]
      rw [hr]
      simp
    rw [this]
    decide
  exact hull_first_reorder_remap_winding [(0, 0), (1, 0), (0, 1)]
    [0, 0, 0, 0, 0, 0] [(0, 0), (1, 1), (2, 2)] [0, 1, 2]
    (by rw [hr]; simp) (0, 1, 2) ht

theorem pcross_cyclic (a b c : ℚ × ℚ) : pcross a b c = pcross b c a := by
  simp only [pcross]; ring

theorem pcross_swap23 (a b c : ℚ × ℚ) : pcross a b c = -pcross a c b := by
  simp only [pcross]; ring

theorem pcross_self23 (a b : ℚ × ℚ) : pcross a b b = 0 := by
  simp only [pcross]; ring

theorem pcross_neg (a b c : ℚ × ℚ) : pcross (-a) (-b) (-c) = pcross a b c := by
  simp only [pcross, Prod.fst_neg, Prod.snd_neg]; ring

theorem cross_xy_eq_pcross (pts : List (ℚ × ℚ)) (i j k : ℕ) :
    cross_xy pts i j k = pcross (pts.getD i (0, 0)) (pts.getD j (0, 0)) (pts.getD k (0, 0)) :=
  rfl

theorem plexLt_irrefl (p : ℚ × ℚ) : ¬ plexLt p p := by
  simp [plexLt]

theorem plexLt_trans {p q r : ℚ × ℚ} (h1 : plexLt p q) (h2 : plexLt q r) : plexLt p r := by
  rcases h1 with h1 | ⟨e1, y1⟩ <;> rcases h2 with h2 | ⟨e2, y2⟩
  · exact Or.inl (lt_trans h1 h2)
  · exact Or.inl (e2 ▸ h1)
  · exact Or.inl (e1 ▸ h2)
  · exact Or.inr ⟨e1.trans e2, lt_trans y1 y2⟩

theorem plexLt_asymm {p q : ℚ × ℚ} (h : plexLt p q) : ¬ plexLt q p := by
  intro h2
  exact plexLt_irrefl p (plexLt_trans h h2)

theorem plexLe_refl (p : ℚ × ℚ) : plexLe p p := Or.inr ⟨rfl, le_refl _⟩

theorem plexLt_le_fst {p q : ℚ × ℚ} (h : plexLt p q) : p.1 ≤ q.1 := by
  rcases h with h | ⟨e, _⟩
  · exact le_of_lt h
  · exact le_of_eq e

theorem plexLe_le_fst {p q : ℚ × ℚ} (h : plexLe p q) : p.1 ≤ q.1 := by
  rcases h with h | ⟨e, _⟩
  · exact le_of_lt h
  · exact le_of_eq e

theorem plexLe_of_lt {p q : ℚ × ℚ} (h : plexLt p q) : plexLe p q := by
  rcases h with h | ⟨e, y⟩
  · exact Or.inl h
  · exact Or.inr ⟨e, le_of_lt y⟩

theorem plexLt_of_le_ne {p q : ℚ × ℚ} (h : plexLe p q) (hne : p ≠ q) : plexLt p q := by
  rcases h with h | ⟨e, y⟩
  · exact Or.inl h
  · rcases lt_or_eq_of_le y with hy | hy
    · exact Or.inr ⟨e, hy⟩
    · exact absurd (Prod.ext e hy) hne

theorem plexLt_neg {p q : ℚ × ℚ} : plexLt (-p) (-q) ↔ plexLt q p := by
  simp only [plexLt, Prod.fst_neg, Prod.snd_neg, neg_lt_neg_iff, neg_inj]
  constructor
  · rintro (h | ⟨e, y⟩)
    · exact Or.inl h
    · exact Or.inr ⟨e.symm, y⟩
  · rintro (h | ⟨e, y⟩)
    · exact Or.inl h
    · exact Or.inr ⟨e.symm, y⟩

theorem hull_step_up {a b c q : ℚ × ℚ} (hab : plexLt a b) (hbc : plexLt b c)
    (hqc : c.1 ≤ q.1) (h1 : 0 < pcross a b c) (h2 : 0 < pcross b c q) :
    0 < pcross a b q := by
  have hab1 : a.1 ≤ b.1 := plexLt_le_fst hab
  rcases hbc with hlt | ⟨heq, hy⟩
  · have hid : pcross a b q * (c.1 - b.1) =
        pcross a b c * (q.1 - b.1) + pcross b c q * (b.1 - a.1) := by
      simp only [pcross]; ring
    have t1 : 0 < pcross a b c * (q.1 - b.1) :=
      mul_pos h1 (by linarith)
    have t2 : 0 ≤ pcross b c q * (b.1 - a.1) :=
      mul_nonneg h2.le (by linarith)
    by_contra hneg
    push_neg at hneg
    nlinarith [mul_nonneg (neg_nonneg.mpr hneg) (show (0:ℚ) ≤ c.1 - b.1 by linarith)]
  · exfalso
    have hpc : pcross b c q = (c.2 - b.2) * (b.1 - q.1) := by
      simp only [pcross]; rw [← heq]; ring
    have : (c.2 - b.2) * (b.1 - q.1) ≤ 0 :=
      mul_nonpos_of_nonneg_of_nonpos (by linarith) (by linarith [heq])
    linarith [hpc ▸ h2]

theorem hull_step_mid {a b c q : ℚ × ℚ} (hab : plexLt a b) (hbc : plexLt b c)
    (hqb : q.1 ≤ b.1) (h1 : 0 < pcross a b c) (h2 : 0 ≤ pcross a b q) :
    0 ≤ pcross b c q := by
  have hab1 : a.1 ≤ b.1 := plexLt_le_fst hab
  have hbc1 : b.1 ≤ c.1 := plexLt_le_fst hbc
  rcases hbc with hlt | ⟨heq, hy⟩
  · rcases hab with hlt2 | ⟨heq2, hy2⟩
    · have hid : pcross b c q * (b.1 - a.1) =
          pcross a b q * (c.1 - b.1) + pcross a b c * (b.1 - q.1) := by
        simp only [pcross]; ring
      have t1 : 0 ≤ pcross a b q * (c.1 - b.1) := mul_nonneg h2 (by linarith)
      have t2 : 0 ≤ pcross a b c * (b.1 - q.1) := mul_nonneg h1.le (by linarith)
      by_contra hneg
      push_neg at hneg
      nlinarith [mul_pos (neg_pos.mpr hneg) (show (0:ℚ) < b.1 - a.1 by linarith)]
    · exfalso
      have hpc : pcross a b c = -((b.2 - a.2) * (c.1 - a.1)) := by
        simp only [pcross]; rw [← heq2]; ring
      have : 0 < (b.2 - a.2) * (c.1 - a.1) :=
        mul_pos (by linarith) (by rw [← heq2] at hlt; linarith)
      linarith [hpc ▸ h1]
  · have hpc : pcross b c q = (c.2 - b.2) * (b.1 - q.1) := by
      simp only [pcross]; rw [← heq]; ring
    rw [hpc]
    exact mul_nonneg (by linarith) (by linarith)

theorem hull_apex_down {v t i q : ℚ × ℚ} (hvt : plexLt v t)
    (hvq : v.1 ≤ q.1) (hvi : v.1 ≤ i.1)
    (h1 : 0 ≤ pcross v i t) (h2 : 0 ≤ pcross v t q)
    (hvert : v.1 = q.1 → v.2 ≤ q.2) :
    0 ≤ pcross v i q := by
  rcases hvt with hlt | ⟨heq, hy⟩
  · have hid : pcross v i q * (t.1 - v.1) =
        pcross v i t * (q.1 - v.1) + pcross v t q * (i.1 - v.1) := by
      simp only [pcross]; ring
    have t1 : 0 ≤ pcross v i t * (q.1 - v.1) := mul_nonneg h1 (by linarith)
    have t2 : 0 ≤ pcross v t q * (i.1 - v.1) := mul_nonneg h2 (by linarith)
    by_contra hneg
    push_neg at hneg
    nlinarith [mul_pos (neg_pos.mpr hneg) (show (0:ℚ) < t.1 - v.1 by linarith)]
  · have hpc : pcross v t q = (t.2 - v.2) * (v.1 - q.1) := by
      simp only [pcross]; rw [← heq]; ring
    have hq1 : q.1 = v.1 := by
      by_contra hne
      have hlt2 : v.1 < q.1 := lt_of_le_of_ne hvq (fun h => hne h.symm)
      have : (t.2 - v.2) * (v.1 - q.1) < 0 :=
        mul_neg_of_pos_of_neg (by linarith) (by linarith)
      linarith [hpc ▸ h2]
    have hq2 : v.2 ≤ q.2 := hvert hq1.symm
    have hpc2 : pcross v i q = (i.1 - v.1) * (q.2 - v.2) := by
      simp only [pcross]; rw [hq1]; ring
    rw [hpc2]
    exact mul_nonneg (by linarith) (by linarith)

theorem hull_base_vert {v i q : ℚ × ℚ} (hle : plexLe v q) (hq : q.1 ≤ v.1)
    (hi : v.1 ≤ i.1) : 0 ≤ pcross v i q := by
  rcases hle with hlt | ⟨heq, hy⟩
  · linarith
  · have hpc : pcross v i q = (i.1 - v.1) * (q.2 - v.2) := by
      simp only [pcross]; rw [← heq]; ring
    rw [hpc]
    exact mul_nonneg (by linarith) (by linarith)

theorem hull_shared_slope {a v p n : ℚ × ℚ} (hav : plexLt a v) (hvp : plexLt v p)
    (hcol : pcross a v p = 0) (hn : 0 ≤ pcross a v n) :
    pcross p v n ≤ 0 := by
  rcases hav with hlt | ⟨heq, hy⟩
  · have hid : pcross p v n * (v.1 - a.1) =
        pcross a v n * (v.1 - p.1) + (n.1 - v.1) * pcross a v p := by
      simp only [pcross]; ring
    rw [hcol, mul_zero, add_zero] at hid
    have hp1 : v.1 ≤ p.1 := plexLt_le_fst hvp
    have hr : pcross a v n * (v.1 - p.1) ≤ 0 :=
      mul_nonpos_of_nonneg_of_nonpos hn (by linarith)
    by_contra hpos
    push_neg at hpos
    nlinarith [mul_pos hpos (show (0:ℚ) < v.1 - a.1 by linarith)]
  · have h0 : pcross a v p = (v.2 - a.2) * (a.1 - p.1) := by
      simp only [pcross]; rw [← heq]; ring
    have hp1 : p.1 = v.1 := by
      rcases mul_eq_zero.mp (h0 ▸ hcol) with h | h
      · linarith
      · have : p.1 = a.1 := by linarith
        rw [this, heq]
    have hp2 : v.2 < p.2 := by
      rcases hvp with h | ⟨_, h⟩
      · rw [hp1] at h; linarith
      · exact h
    have hid : pcross p v n * (v.2 - a.2) =
        pcross a v n * (v.2 - p.2) + (n.2 - v.2) * pcross a v p := by
      simp only [pcross]; ring
    rw [hcol, mul_zero, add_zero] at hid
    have hr : pcross a v n * (v.2 - p.2) ≤ 0 :=
      mul_nonpos_of_nonneg_of_nonpos hn (by linarith)
    by_contra hpos
    push_neg at hpos
    nlinarith [mul_pos hpos (show (0:ℚ) < v.2 - a.2 by linarith)]

theorem hull_junction_line {A M B q : ℚ × ℚ} (hA : plexLt A M) (hB : plexLt B M)
    (hcol : pcross A M B = 0) (h1 : 0 ≤ pcross A M q) (h2 : 0 ≤ pcross M B q) :
    pcross A M q = 0 := by
  rcases hA with hAlt | ⟨hAeq, hAy⟩
  · rcases hB with hBlt | ⟨hBeq, hBy⟩
    · have hid : pcross M B q * (M.1 - A.1) =
          pcross A M q * (B.1 - M.1) + (M.1 - q.1) * pcross A M B := by
        simp only [pcross]; ring
      rw [hcol, mul_zero, add_zero] at hid
      have e1 : 0 ≤ pcross M B q * (M.1 - A.1) := mul_nonneg h2 (by linarith)
      have e2 : pcross A M q * (B.1 - M.1) ≤ 0 :=
        mul_nonpos_of_nonneg_of_nonpos h1 (by linarith)
      have e3 : pcross A M q * (B.1 - M.1) = 0 := le_antisymm e2 (by linarith)
      rcases mul_eq_zero.mp e3 with h | h
      · exact h
      · exfalso; have : B.1 = M.1 := by linarith
        linarith
    · exfalso
      have h0 : pcross A M B = (M.1 - A.1) * (B.2 - M.2) := by
        simp only [pcross]; rw [hBeq]; ring
      rcases mul_eq_zero.mp (h0 ▸ hcol) with h | h
      · linarith
      · linarith
  · have hB1 : B.1 = M.1 := by
      have h0 : pcross A M B = (M.2 - A.2) * (A.1 - B.1) := by
        simp only [pcross]; rw [← hAeq]; ring
      rcases mul_eq_zero.mp (h0 ▸ hcol) with h | h
      · linarith
      · rw [← hAeq]; linarith
    have hB2 : B.2 < M.2 := by
      rcases hB with h | ⟨_, h⟩
      · rw [hB1] at h; linarith
      · exact h
    have hid : pcross M B q * (M.2 - A.2) =
        pcross A M q * (B.2 - M.2) + (M.2 - q.2) * pcross A M B := by
      simp only [pcross]; ring
    rw [hcol, mul_zero, add_zero] at hid
    have e1 : 0 ≤ pcross M B q * (M.2 - A.2) := mul_nonneg h2 (by linarith)
    have e2 : pcross A M q * (B.2 - M.2) ≤ 0 :=
      mul_nonpos_of_nonneg_of_nonpos h1 (by linarith)
    have e3 : pcross A M q * (B.2 - M.2) = 0 := le_antisymm e2 (by linarith)
    rcases mul_eq_zero.mp e3 with h | h
    · exact h
    · exfalso; linarith

theorem hull_coll3 {A M x y z : ℚ × ℚ} (hne : A ≠ M)
    (hx : pcross A M x = 0) (hy : pcross A M y = 0) (hz : pcross A M z = 0) :
    pcross x y z = 0 := by
  have hid1 : pcross x y z * (M.1 - A.1) =
      (pcross A M z - pcross A M x) * (y.1 - x.1) -
        (pcross A M y - pcross A M x) * (z.1 - x.1) := by
    simp only [pcross]; ring
  have hid2 : pcross x y z * (M.2 - A.2) =
      (pcross A M z - pcross A M x) * (y.2 - x.2) -
        (pcross A M y - pcross A M x) * (z.2 - x.2) := by
    simp only [pcross]; ring
  rw [hx, hy, hz] at hid1 hid2
  simp only [sub_zero, zero_sub, sub_self, zero_mul, neg_zero, mul_zero,
    sub_self] at hid1 hid2
  by_cases h1 : M.1 = A.1
  · have h2 : M.2 ≠ A.2 := by
      intro h2
      exact hne (Prod.ext h1.symm h2.symm)
    rcases mul_eq_zero.mp hid2 with h | h
    · exact h
    · exact absurd (by linarith : M.2 = A.2) h2
  · rcases mul_eq_zero.mp hid1 with h | h
    · exact h
    · exact absurd (by linarith : M.1 = A.1) h1

end Spine

namespace Spine

theorem mem_of_getLast?_eq {α : Type} {l : List α} {a : α} (h : l.getLast? = some a) :
    a ∈ l := by
  induction l with
  | nil => simp at h
  | cons x t ih =>
    cases t with
    | nil =>
      simp at h
      subst h
      exact List.mem_cons_self ..
    | cons y t2 =>
      rw [List.getLast?_cons_cons] at h
      exact List.mem_cons_of_mem _ (ih h)

theorem gPop_suffix (Q : ℕ → ℚ × ℚ) (i : ℕ) : ∀ C : List ℕ, (gPop Q i C).IsSuffix C := by
  intro C
  induction C with
  | nil => simp [gPop]
  | cons b t ih =>
    cases t with
    | nil => simp [gPop]
    | cons a rest =>
      rw [gPop]
      split
      · exact ih.trans (List.suffix_cons b (a :: rest))
      · exact List.suffix_rfl

theorem gPop_getLast? (Q : ℕ → ℚ × ℚ) (i : ℕ) :
    ∀ C : List ℕ, (gPop Q i C).getLast? = C.getLast? := by
  intro C
  induction C with
  | nil => simp [gPop]
  | cons b t ih =>
    cases t with
    | nil => simp [gPop]
    | cons a rest =>
      rw [gPop]
      split
      · rw [ih, List.getLast?_cons_cons]
      · rfl

theorem gPop_ne_nil (Q : ℕ → ℚ × ℚ) (i : ℕ) (C : List ℕ) (h : C ≠ []) :
    gPop Q i C ≠ [] := by
  intro hc
  have hl := gPop_getLast? Q i C
  rw [hc] at hl
  simp only [List.getLast?_nil] at hl
  exact h (List.getLast?_eq_none_iff.mp hl.symm)

theorem gPop_stop (Q : ℕ → ℚ × ℚ) (i : ℕ) :
    ∀ (C : List ℕ) {b a : ℕ} {rest : List ℕ}, gPop Q i C = b :: a :: rest →
      0 < pcross (Q a) (Q b) (Q i) := by
  intro C
  induction C with
  | nil => intro b a rest h; simp [gPop] at h
  | cons x t ih =>
    cases t with
    | nil => intro b a rest h; simp [gPop] at h
    | cons y rest0 =>
      intro b a rest h
      rw [gPop] at h
      split at h
      · exact ih h
      · next hcond =>
        obtain ⟨h1, h2, h3⟩ : x = b ∧ y = a ∧ rest0 = rest := by
          injection h with h1 h2
          injection h2 with h2 h3
          exact ⟨h1, h2, h3⟩
        subst h1
        subst h2
        push_neg at hcond
        exact hcond

theorem gPop_popped (Q : ℕ → ℚ × ℚ) (i : ℕ) :
    ∀ C : List ℕ, gPop Q i C = C ∨
      ∃ t1 hd rest2, gPop Q i C = hd :: rest2 ∧ (t1 :: hd :: rest2).IsSuffix C ∧
        pcross (Q hd) (Q t1) (Q i) ≤ 0 := by
  intro C
  induction C with
  | nil => exact Or.inl (by simp [gPop])
  | cons x t ih =>
    cases t with
    | nil => exact Or.inl (by simp [gPop])
    | cons y rest0 =>
      rw [gPop]
      split
      · next hcond =>
        rcases ih with h | ⟨t1, hd, rest2, h1, h2, h3⟩
        · exact Or.inr ⟨x, y, rest0, h, List.suffix_rfl, hcond⟩
        · exact Or.inr ⟨t1, hd, rest2, h1,
            h2.trans (List.suffix_cons x (y :: rest0)), h3⟩
      · exact Or.inl rfl

theorem chainLeft_tail {Q : ℕ → ℚ × ℚ} {x : ℕ} {l : List ℕ} (h : ChainLeft Q (x :: l)) :
    ChainLeft Q l := by
  match l with
  | [] => simp [ChainLeft]
  | [b] => simp [ChainLeft]
  | b :: a :: r => exact h.2

theorem chainLeft_append_right {Q : ℕ → ℚ × ℚ} (C : List ℕ) :
    ∀ pre : List ℕ, ChainLeft Q (pre ++ C) → ChainLeft Q C := by
  intro pre
  induction pre with
  | nil => exact fun h => h
  | cons x t ih => exact fun h => ih (chainLeft_tail h)

theorem chainLeft_suffix {Q : ℕ → ℚ × ℚ} {C C2 : List ℕ} (h : C2.IsSuffix C)
    (hg : ChainLeft Q C) : ChainLeft Q C2 := by
  obtain ⟨pre, rfl⟩ := h
  exact chainLeft_append_right C2 pre hg

theorem chainIncr_cons2 {Q : ℕ → ℚ × ℚ} {x y : ℕ} {l : List ℕ}
    (h : ChainIncr Q (x :: y :: l)) : plexLt (Q y) (Q x) ∧ ChainIncr Q (y :: l) :=
  List.chain'_cons.mp h

theorem chainIncr_cons_mk {Q : ℕ → ℚ × ℚ} {x y : ℕ} {l : List ℕ}
    (h1 : plexLt (Q y) (Q x)) (h2 : ChainIncr Q (y :: l)) : ChainIncr Q (x :: y :: l) :=
  List.chain'_cons.mpr ⟨h1, h2⟩

theorem edgesAbove_cons2 {Q : ℕ → ℚ × ℚ} {q x y : ℕ} {l : List ℕ}
    (h : EdgesAbove Q q (x :: y :: l)) :
    0 ≤ pcross (Q y) (Q x) (Q q) ∧ EdgesAbove Q q (y :: l) :=
  List.chain'_cons.mp h

theorem edgesAbove_cons_mk {Q : ℕ → ℚ × ℚ} {q x y : ℕ} {l : List ℕ}
    (h1 : 0 ≤ pcross (Q y) (Q x) (Q q)) (h2 : EdgesAbove Q q (y :: l)) :
    EdgesAbove Q q (x :: y :: l) :=
  List.chain'_cons.mpr ⟨h1, h2⟩

theorem chainIncr_suffix {Q : ℕ → ℚ × ℚ} {C C2 : List ℕ} (h : C2.IsSuffix C)
    (hg : ChainIncr Q C) : ChainIncr Q C2 :=
  List.Chain'.suffix hg h

theorem edgesAbove_suffix {Q : ℕ → ℚ × ℚ} {q : ℕ} {C C2 : List ℕ} (h : C2.IsSuffix C)
    (hg : EdgesAbove Q q C) : EdgesAbove Q q C2 :=
  List.Chain'.suffix hg h

theorem edgesAbove_of_top (Q : ℕ → ℚ × ℚ) (i : ℕ) :
    ∀ (l : List ℕ) (b a : ℕ), ChainIncr Q (b :: a :: l) → ChainLeft Q (b :: a :: l) →
      (∀ c ∈ b :: a :: l, plexLt (Q c) (Q i)) →
      0 < pcross (Q a) (Q b) (Q i) → EdgesAbove Q i (b :: a :: l) := by
  intro l
  induction l with
  | nil =>
    intro b a _ _ _ htop
    exact List.chain'_pair.mpr htop.le
  | cons c t ih =>
    intro b a hincr hleft hmem htop
    have hml : plexLt (Q c) (Q a) := (List.chain'_cons.mp (List.chain'_cons.mp hincr).2).1
    have hmu : plexLt (Q a) (Q b) := (List.chain'_cons.mp hincr).1
    have h1 : 0 < pcross (Q c) (Q a) (Q b) := hleft.1
    have h2 : 0 < pcross (Q c) (Q a) (Q i) :=
      hull_step_up hml hmu (plexLt_le_fst (hmem b (List.mem_cons_self ..))) h1 htop
    have hrec : EdgesAbove Q i (a :: c :: t) :=
      ih a c hincr.tail (chainLeft_tail hleft)
        (fun x hx => hmem x (List.mem_cons_of_mem _ hx)) h2
    exact List.chain'_cons.mpr ⟨htop.le, hrec⟩

theorem goodChain_nil (Q : ℕ → ℚ × ℚ) : GoodChain Q [] [] := by
  refine ⟨List.chain'_nil, ?_, ?_, ?_, rfl, rfl⟩
  · simp [ChainLeft]
  · simp [EdgesAbove]
  · simp

theorem goodChain_step {Q : ℕ → ℚ × ℚ} {done C : List ℕ} {i : ℕ}
    (hg : GoodChain Q done C)
    (hlt : ∀ q ∈ done, plexLt (Q q) (Q i))
    (hmin : ∀ q ∈ done, ∀ hd ∈ done.head?, plexLe (Q hd) (Q q))
    (hmax : ∀ q ∈ done, ∀ tl ∈ done.getLast?, plexLe (Q q) (Q tl)) :
    GoodChain Q (done ++ [i]) (i :: gPop Q i C) := by
  have hCsub : ∀ c ∈ gPop Q i C, c ∈ C := fun c hc => (gPop_suffix Q i C).subset hc
  have hlt2 : ∀ c ∈ gPop Q i C, plexLt (Q c) (Q i) :=
    fun c hc => hlt c (hg.sub c (hCsub c hc))
  have hincr2 : ChainIncr Q (gPop Q i C) := chainIncr_suffix (gPop_suffix Q i C) hg.incr
  have hleft2 : ChainLeft Q (gPop Q i C) := chainLeft_suffix (gPop_suffix Q i C) hg.turn
  have hnil_done : gPop Q i C = [] → done = [] := by
    intro hc
    have hl := gPop_getLast? Q i C
    rw [hc] at hl
    simp only [List.getLast?_nil] at hl
    have hCnil : C = [] := List.getLast?_eq_none_iff.mp hl.symm
    have hbot := hg.bot
    rw [hCnil] at hbot
    simp only [List.getLast?_nil] at hbot
    exact List.head?_eq_none_iff.mp hbot.symm
  refine ⟨?_, ?_, ?_, ?_, ?_, ?_⟩
  · -- ChainIncr
    cases hC2 : gPop Q i C with
    | nil => exact List.chain'_singleton i
    | cons hd rest =>
      have hincr3 : ChainIncr Q (hd :: rest) := by rw [← hC2]; exact hincr2
      exact chainIncr_cons_mk (hlt2 hd (by rw [hC2]; exact List.mem_cons_self ..)) hincr3
  · -- ChainLeft
    cases hC2 : gPop Q i C with
    | nil => simp [ChainLeft]
    | cons hd rest =>
      cases rest with
      | nil => simp [ChainLeft]
      | cons a rest2 =>
        have hleft3 : ChainLeft Q (hd :: a :: rest2) := by rw [← hC2]; exact hleft2
        exact ⟨gPop_stop Q i C hC2, hleft3⟩
  · -- above
    intro q hq
    rcases List.mem_append.mp hq with hq | hq
    · -- q was already processed
      cases hC2 : gPop Q i C with
      | nil =>
        exfalso
        rw [hnil_done hC2] at hq
        simp at hq
      | cons hd rest =>
        have habove2 : EdgesAbove Q q (hd :: rest) := by
          rw [← hC2]
          exact edgesAbove_suffix (gPop_suffix Q i C) (hg.above q hq)
        have hmem_hd : hd ∈ gPop Q i C := by rw [hC2]; exact List.mem_cons_self ..
        refine edgesAbove_cons_mk ?_ habove2
        by_cases hx : (Q q).1 ≤ (Q hd).1
        · cases rest with
          | nil =>
            -- chain popped down to the single bottom element
            have hhd : done.head? = some hd := by
              rw [← hg.bot, ← gPop_getLast? Q i C, hC2]
              rfl
            have hle : plexLe (Q hd) (Q q) := hmin q hq hd (by rw [hhd]; rfl)
            exact hull_base_vert hle hx (plexLt_le_fst (hlt2 hd hmem_hd))
          | cons a rest2 =>
            have hstop := gPop_stop Q i C hC2
            have hincr3 : ChainIncr Q (hd :: a :: rest2) := by rw [← hC2]; exact hincr2
            have hma : plexLt (Q a) (Q hd) := (chainIncr_cons2 hincr3).1
            have hmi : plexLt (Q hd) (Q i) := hlt2 hd hmem_hd
            have hedge : 0 ≤ pcross (Q a) (Q hd) (Q q) := (edgesAbove_cons2 habove2).1
            exact hull_step_mid hma hmi hx hstop hedge
        · push_neg at hx
          rcases gPop_popped Q i C with heq | ⟨t1, hd2, rest2, h1, h2, h3⟩
          · -- no pops: the chain head is the lex-largest processed point
            exfalso
            have htl : done.getLast? = some hd := by
              rw [← hg.top, ← heq, hC2]
              rfl
            have hle := plexLe_le_fst (hmax q hq hd (by rw [htl]; rfl))
            linarith
          · have h1b : hd :: rest = hd2 :: rest2 := by rw [← hC2, h1]
            cases h1b
            -- now h2 : t1 :: hd :: rest <:+ C, h3 : pcross (Q hd) (Q t1) (Q i) ≤ 0
            have hinc_t : plexLt (Q hd) (Q t1) :=
              (chainIncr_cons2 (chainIncr_suffix h2 hg.incr)).1
            have habove_t : 0 ≤ pcross (Q hd) (Q t1) (Q q) :=
              (edgesAbove_cons2 (edgesAbove_suffix h2 (hg.above q hq))).1
            have hswap : 0 ≤ pcross (Q hd) (Q i) (Q t1) := by
              rw [pcross_swap23]
              linarith
            exact hull_apex_down hinc_t hx.le (plexLt_le_fst (hlt2 hd hmem_hd))
              hswap habove_t (fun h => absurd h (ne_of_lt hx))
    · -- q = i itself
      simp only [List.mem_singleton] at hq
      subst hq
      cases hC2 : gPop Q q C with
      | nil => exact List.chain'_singleton q
      | cons hd rest =>
        refine edgesAbove_cons_mk (le_of_eq (pcross_self23 (Q hd) (Q q)).symm) ?_
        cases rest with
        | nil => exact List.chain'_singleton hd
        | cons a rest2 =>
          have hincr3 : ChainIncr Q (hd :: a :: rest2) := by rw [← hC2]; exact hincr2
          have hleft3 : ChainLeft Q (hd :: a :: rest2) := by rw [← hC2]; exact hleft2
          have hlt3 : ∀ c ∈ hd :: a :: rest2, plexLt (Q c) (Q q) := by
            rw [← hC2]; exact hlt2
          exact edgesAbove_of_top Q q rest2 hd a hincr3 hleft3 hlt3 (gPop_stop Q q C hC2)
  · -- sub
    intro c hc
    rcases List.mem_cons.mp hc with rfl | hc
    · exact List.mem_append.mpr (Or.inr (List.mem_cons_self ..))
    · exact List.mem_append.mpr (Or.inl (hg.sub c (hCsub c hc)))
  · -- bot
    cases hC2 : gPop Q i C with
    | nil =>
      rw [hnil_done hC2]
      rfl
    | cons hd rest =>
      have hlast : (hd :: rest).getLast? = done.head? := by
        rw [← hC2, gPop_getLast? Q i C]
        exact hg.bot
      have hdne : done ≠ [] := by
        intro hdnil
        rw [hdnil] at hlast
        simp at hlast
      rw [List.getLast?_cons_cons, hlast]
      obtain ⟨d, dt, rfl⟩ : ∃ d dt, done = d :: dt := by
        cases done with
        | nil => exact absurd rfl hdne
        | cons d dt => exact ⟨d, dt, rfl⟩
      rfl
  · -- top
    simp [List.getLast?_concat]

theorem pairwise_head_min {Q : ℕ → ℚ × ℚ} {l : List ℕ}
    (hp : List.Pairwise (fun a b => plexLt (Q a) (Q b)) l) :
    ∀ q ∈ l, ∀ hd ∈ l.head?, plexLe (Q hd) (Q q) := by
  cases l with
  | nil => simp
  | cons x t =>
    intro q hq hd hhd
    simp only [List.head?_cons, Option.mem_def, Option.some.injEq] at hhd
    subst hhd
    rcases List.mem_cons.mp hq with rfl | hq
    · exact plexLe_refl _
    · exact plexLe_of_lt ((List.pairwise_cons.mp hp).1 q hq)

theorem pairwise_last_max {Q : ℕ → ℚ × ℚ} :
    ∀ {l : List ℕ}, List.Pairwise (fun a b => plexLt (Q a) (Q b)) l →
      ∀ q ∈ l, ∀ tl ∈ l.getLast?, plexLe (Q q) (Q tl) := by
  intro l
  induction l with
  | nil => simp
  | cons x t ih =>
    intro hp q hq tl htl
    cases t with
    | nil =>
      simp only [List.mem_singleton] at hq
      simp only [List.getLast?_singleton, Option.mem_def, Option.some.injEq] at htl
      subst hq
      subst htl
      exact plexLe_refl _
    | cons y t2 =>
      rw [List.getLast?_cons_cons] at htl
      rcases List.mem_cons.mp hq with rfl | hq
      · have htl_mem : tl ∈ y :: t2 := mem_of_getLast?_eq htl
        exact plexLe_of_lt ((List.pairwise_cons.mp hp).1 tl htl_mem)
      · exact ih (List.pairwise_cons.mp hp).2 q hq tl htl

theorem gFold_invariant {Q : ℕ → ℚ × ℚ} :
    ∀ (todo done C : List ℕ), GoodChain Q done C →
      List.Pairwise (fun a b => plexLt (Q a) (Q b)) (done ++ todo) →
      GoodChain Q (done ++ todo)
        (todo.foldl (fun chain j => j :: gPop Q j chain) C) := by
  intro todo
  induction todo with
  | nil =>
    intro done C hg _
    simpa using hg
  | cons i t ih =>
    intro done C hg hp
    have hpa := List.pairwise_append.mp hp
    have hlt : ∀ q ∈ done, plexLt (Q q) (Q i) :=
      fun q hq => hpa.2.2 q hq i (List.mem_cons_self ..)
    have hstep := goodChain_step hg hlt (pairwise_head_min hpa.1) (pairwise_last_max hpa.1)
    have hre : done ++ i :: t = (done ++ [i]) ++ t := by simp
    rw [hre] at hp ⊢
    simpa using ih (done ++ [i]) (i :: gPop Q i C) hstep hp

theorem gFold_good {Q : ℕ → ℚ × ℚ} {idxs : List ℕ}
    (hp : List.Pairwise (fun a b => plexLt (Q a) (Q b)) idxs) :
    GoodChain Q idxs (gFold Q idxs) := by
  have := gFold_invariant idxs [] [] (goodChain_nil Q) (by simpa using hp)
  simpa [gFold] using this

theorem chPop_eq_gPop (pts : List (ℚ × ℚ)) (i : ℕ) :
    ∀ C, chPop pts i C = gPop (fun t => pts.getD t (0, 0)) i C := by
  intro C
  induction C with
  | nil => simp [chPop, gPop]
  | cons b t ih =>
    cases t with
    | nil => simp [chPop, gPop]
    | cons a rest =>
      rw [chPop, gPop]
      simp only [cross_xy_eq_pcross]
      split
      · exact ih
      · rfl

theorem chainFold_eq_gFold (pts : List (ℚ × ℚ)) (idxs : List ℕ) :
    chainFold pts idxs = gFold (fun t => pts.getD t (0, 0)) idxs := by
  have hf : (fun (chain : List ℕ) (i : ℕ) => i :: chPop pts i chain)
      = fun chain i => i :: gPop (fun t => pts.getD t (0, 0)) i chain := by
    funext chain i
    rw [chPop_eq_gPop]
  rw [chainFold, gFold, hf]

theorem gPop_neg (Q : ℕ → ℚ × ℚ) (i : ℕ) :
    ∀ C, gPop (fun t => -(Q t)) i C = gPop Q i C := by
  intro C
  induction C with
  | nil => simp [gPop]
  | cons b t ih =>
    cases t with
    | nil => simp [gPop]
    | cons a rest =>
      rw [gPop, gPop]
      simp only [pcross_neg]
      split
      · exact ih
      · rfl

theorem gFold_neg (Q : ℕ → ℚ × ℚ) (idxs : List ℕ) :
    gFold (fun t => -(Q t)) idxs = gFold Q idxs := by
  have hf : (fun (chain : List ℕ) (i : ℕ) => i :: gPop (fun t => -(Q t)) i chain)
      = fun chain i => i :: gPop Q i chain := by
    funext chain i
    rw [gPop_neg]
  rw [gFold, gFold, hf]

theorem plexLe_total (p q : ℚ × ℚ) : plexLe p q ∨ plexLe q p := by
  rcases lt_trichotomy p.1 q.1 with h | h | h
  · exact Or.inl (Or.inl h)
  · rcases le_total p.2 q.2 with hy | hy
    · exact Or.inl (Or.inr ⟨h, hy⟩)
    · exact Or.inr (Or.inr ⟨h.symm, hy⟩)
  · exact Or.inr (Or.inl h)

theorem plexLe_trans {p q r : ℚ × ℚ} (h1 : plexLe p q) (h2 : plexLe q r) : plexLe p r := by
  rcases h1 with h1 | ⟨e1, y1⟩ <;> rcases h2 with h2 | ⟨e2, y2⟩
  · exact Or.inl (lt_trans h1 h2)
  · exact Or.inl (e2 ▸ h1)
  · exact Or.inl (e1 ▸ h2)
  · exact Or.inr ⟨e1.trans e2, le_trans y1 y2⟩

theorem plexLt_ne {p q : ℚ × ℚ} (h : plexLt p q) : p ≠ q := by
  intro he
  exact plexLt_irrefl p (he ▸ h)

theorem pcross_swap13 (a b c : ℚ × ℚ) : pcross a b c = -pcross c b a := by
  simp only [pcross]; ring

theorem lexKeyLe_iff (pts : List (ℚ × ℚ)) (i j : ℕ) :
    lexKeyLe pts i j = true ↔ plexLe (ptsQ pts i) (ptsQ pts j) := by
  rw [lexKeyLe, decide_eq_true_iff]
  rfl

theorem sortedIdx_perm (pts : List (ℚ × ℚ)) :
    (sortedIdx pts).Perm (List.range pts.length) :=
  List.mergeSort_perm _ _

theorem sortedIdx_nodup (pts : List (ℚ × ℚ)) : (sortedIdx pts).Nodup :=
  ((sortedIdx_perm pts).nodup_iff).mpr (List.nodup_range _)

theorem sortedIdx_mem (pts : List (ℚ × ℚ)) {i : ℕ} :
    i ∈ sortedIdx pts ↔ i < pts.length := by
  rw [sortedIdx, List.mem_mergeSort, List.mem_range]

theorem sortedIdx_length (pts : List (ℚ × ℚ)) :
    (sortedIdx pts).length = pts.length :=
  ((sortedIdx_perm pts).length_eq).trans (List.length_range _)

theorem sortedIdx_sorted (pts : List (ℚ × ℚ)) :
    List.Pairwise (fun a b => plexLe (ptsQ pts a) (ptsQ pts b)) (sortedIdx pts) := by
  have htr : ∀ (a b c : ℕ), lexKeyLe pts a b = true → lexKeyLe pts b c = true →
      lexKeyLe pts a c = true := by
    intro a b c h1 h2
    rw [lexKeyLe_iff] at h1 h2 ⊢
    exact plexLe_trans h1 h2
  have hto : ∀ (a b : ℕ), (lexKeyLe pts a b || lexKeyLe pts b a) = true := by
    intro a b
    rcases plexLe_total (ptsQ pts a) (ptsQ pts b) with h | h
    · rw [Bool.or_eq_true]
      exact Or.inl ((lexKeyLe_iff pts a b).mpr h)
    · rw [Bool.or_eq_true]
      exact Or.inr ((lexKeyLe_iff pts b a).mpr h)
  have := List.sorted_mergeSort htr hto (List.range pts.length)
  exact this.imp (fun h => (lexKeyLe_iff pts _ _).mp h)

theorem ptsQ_inj {pts : List (ℚ × ℚ)} (hdist : pts.Pairwise (· ≠ ·)) {i j : ℕ}
    (hi : i < pts.length) (hj : j < pts.length) (hij : i ≠ j) :
    ptsQ pts i ≠ ptsQ pts j := by
  have hQ : ∀ {a b : ℕ} (ha : a < pts.length) (hb : b < pts.length), a < b →
      ptsQ pts a ≠ ptsQ pts b := by
    intro a b ha hb hab
    have := List.pairwise_iff_getElem.mp hdist a b ha hb hab
    rw [ptsQ, ptsQ, List.getD_eq_getElem _ _ ha, List.getD_eq_getElem _ _ hb]
    exact this
  rcases Nat.lt_or_ge i j with h | h
  · exact hQ hi hj h
  · have hlt : j < i := lt_of_le_of_ne h (Ne.symm hij)
    exact (hQ hj hi hlt).symm

theorem sortedIdx_strict {pts : List (ℚ × ℚ)} (hdist : pts.Pairwise (· ≠ ·)) :
    List.Pairwise (fun a b => plexLt (ptsQ pts a) (ptsQ pts b)) (sortedIdx pts) := by
  have h1 := sortedIdx_sorted pts
  have h2 : List.Pairwise (· ≠ ·) (sortedIdx pts) := sortedIdx_nodup pts
  have h3 := List.Pairwise.and h1 h2
  refine h3.imp_of_mem ?_
  intro a b ha hb hab
  exact plexLt_of_le_ne hab.1
    (ptsQ_inj hdist ((sortedIdx_mem pts).mp ha) ((sortedIdx_mem pts).mp hb) hab.2)

theorem sortedIdxRev_strict {pts : List (ℚ × ℚ)} (hdist : pts.Pairwise (· ≠ ·)) :
    List.Pairwise (fun a b => plexLt (-(ptsQ pts a)) (-(ptsQ pts b)))
      (sortedIdx pts).reverse := by
  rw [List.pairwise_reverse]
  exact (sortedIdx_strict hdist).imp (fun h => plexLt_neg.mpr h)

theorem lower_good {pts : List (ℚ × ℚ)} (hdist : pts.Pairwise (· ≠ ·)) :
    GoodChain (ptsQ pts) (sortedIdx pts) (chainFold pts (sortedIdx pts)) := by
  have he : chainFold pts (sortedIdx pts) = gFold (ptsQ pts) (sortedIdx pts) :=
    chainFold_eq_gFold pts (sortedIdx pts)
  rw [he]
  exact gFold_good (sortedIdx_strict hdist)

theorem upper_good {pts : List (ℚ × ℚ)} (hdist : pts.Pairwise (· ≠ ·)) :
    GoodChain (fun t => -(ptsQ pts t)) (sortedIdx pts).reverse
      (chainFold pts (sortedIdx pts).reverse) := by
  have he : chainFold pts (sortedIdx pts).reverse
      = gFold (fun t => -(ptsQ pts t)) (sortedIdx pts).reverse := by
    rw [chainFold_eq_gFold, gFold_neg]
    rfl
  rw [he]
  exact gFold_good (sortedIdxRev_strict hdist)

theorem chainIncr_pairwise {Q : ℕ → ℚ × ℚ} :
    ∀ {C : List ℕ}, ChainIncr Q C →
      List.Pairwise (fun b a => plexLt (Q a) (Q b)) C := by
  intro C
  induction C with
  | nil => exact fun _ => List.Pairwise.nil
  | cons x t ih =>
    intro h
    cases t with
    | nil => simp
    | cons y t2 =>
      obtain ⟨hxy, hrest⟩ := List.chain'_cons.mp h
      have hp := ih hrest
      refine List.pairwise_cons.mpr ⟨?_, hp⟩
      intro z hz
      rcases List.mem_cons.mp hz with rfl | hz
      · exact hxy
      · exact plexLt_trans ((List.pairwise_cons.mp hp).1 z hz) hxy

theorem chainIncr_nodup {Q : ℕ → ℚ × ℚ} {C : List ℕ} (h : ChainIncr Q C) :
    C.Nodup := by
  refine (chainIncr_pairwise h).imp ?_
  intro a b hab
  intro he
  exact plexLt_irrefl (Q a) (he ▸ hab)

theorem dedupFirst_eq_self {α : Type} [DecidableEq α] :
    ∀ {l seen : List α}, l.Nodup → (∀ x ∈ l, x ∉ seen) → dedupFirst l seen = l := by
  intro l
  induction l with
  | nil => intro seen _ _; rfl
  | cons x t ih =>
    intro seen hnd hsn
    rw [dedupFirst, if_neg (hsn x (List.mem_cons_self ..))]
    congr 1
    refine ih (List.nodup_cons.mp hnd).2 ?_
    intro y hy
    intro hc
    rcases List.mem_cons.mp hc with rfl | hc
    · exact (List.nodup_cons.mp hnd).1 hy
    · exact hsn y (List.mem_cons_of_mem _ hy) hc

theorem chainLeft_getElem {Q : ℕ → ℚ × ℚ} :
    ∀ {C : List ℕ}, ChainLeft Q C → ∀ j (hj : j + 2 < C.length),
      0 < pcross (Q (C.get ⟨j + 2, by omega⟩)) (Q (C.get ⟨j + 1, by omega⟩))
        (Q (C.get ⟨j, by omega⟩)) := by
  intro C
  induction C with
  | nil => intro _ j hj; simp at hj
  | cons x t ih =>
    intro h j hj
    cases t with
    | nil => simp at hj
    | cons y t2 =>
      cases t2 with
      | nil =>
        simp only [List.length_cons, List.length_nil] at hj
        omega
      | cons z t3 =>
        cases j with
        | zero => simpa using h.1
        | succ j2 =>
          have hlen : j2 + 2 < (y :: z :: t3).length := by
            simp only [List.length_cons] at hj ⊢
            omega
          simpa using ih (chainLeft_tail h) j2 hlen

theorem natural_turn {Q : ℕ → ℚ × ℚ} {C : List ℕ} (h : ChainLeft Q C)
    {j : ℕ} (hj : j + 2 < C.length) :
    0 < pcross (Q (C.reverse.getD j 0)) (Q (C.reverse.getD (j + 1) 0))
      (Q (C.reverse.getD (j + 2) 0)) := by
  have h0 : j < C.reverse.length := by simp; omega
  have h1 : j + 1 < C.reverse.length := by simp; omega
  have h2 : j + 2 < C.reverse.length := by simp; omega
  rw [List.getD_eq_getElem _ _ h0, List.getD_eq_getElem _ _ h1,
    List.getD_eq_getElem _ _ h2, List.getElem_reverse, List.getElem_reverse,
    List.getElem_reverse]
  have hstep := chainLeft_getElem h (C.length - 3 - j) (by omega)
  simp only [List.get_eq_getElem] at hstep
  have e0 : C.length - 1 - j = C.length - 3 - j + 2 := by omega
  have e1 : C.length - 1 - (j + 1) = C.length - 3 - j + 1 := by omega
  have e2 : C.length - 1 - (j + 2) = C.length - 3 - j := by omega
  simp only [e0, e1, e2]
  exact hstep

theorem natural_edge {Q : ℕ → ℚ × ℚ} {k : ℕ} {C : List ℕ} (h : EdgesAbove Q k C)
    {j : ℕ} (hj : j + 1 < C.length) :
    0 ≤ pcross (Q (C.reverse.getD j 0)) (Q (C.reverse.getD (j + 1) 0)) (Q k) := by
  have h0 : j < C.reverse.length := by simp; omega
  have h1 : j + 1 < C.reverse.length := by simp; omega
  rw [List.getD_eq_getElem _ _ h0, List.getD_eq_getElem _ _ h1,
    List.getElem_reverse, List.getElem_reverse]
  have hchain := List.chain'_iff_get.mp h (C.length - 2 - j) (by omega)
  simp only [List.get_eq_getElem] at hchain
  have e0 : C.length - 1 - j = C.length - 2 - j + 1 := by omega
  have e1 : C.length - 1 - (j + 1) = C.length - 2 - j := by omega
  simp only [e0, e1]
  exact hchain

theorem natural_incr {Q : ℕ → ℚ × ℚ} {C : List ℕ} (h : ChainIncr Q C)
    {j : ℕ} (hj : j + 1 < C.length) :
    plexLt (Q (C.reverse.getD j 0)) (Q (C.reverse.getD (j + 1) 0)) := by
  have h0 : j < C.reverse.length := by simp; omega
  have h1 : j + 1 < C.reverse.length := by simp; omega
  rw [List.getD_eq_getElem _ _ h0, List.getD_eq_getElem _ _ h1,
    List.getElem_reverse, List.getElem_reverse]
  have hchain := List.chain'_iff_get.mp h (C.length - 2 - j) (by omega)
  simp only [List.get_eq_getElem] at hchain
  have e0 : C.length - 1 - j = C.length - 2 - j + 1 := by omega
  have e1 : C.length - 1 - (j + 1) = C.length - 2 - j := by omega
  simp only [e0, e1]
  exact hchain

theorem junction_strict_max (pts : List (ℚ × ℚ)) (hncol : ¬ AllCollinear pts)
    {A M B : ℚ × ℚ} (hA : plexLt A M) (hB : plexLt B M)
    (h1 : ∀ q ∈ pts, 0 ≤ pcross A M q) (h2 : ∀ q ∈ pts, 0 ≤ pcross M B q)
    (hmem : B ∈ pts) : 0 < pcross A M B := by
  rcases (h1 B hmem).lt_or_eq with h | h
  · exact h
  · exfalso
    apply hncol
    intro x hx y hy z hz
    have hline : ∀ q ∈ pts, pcross A M q = 0 :=
      fun q hq => hull_junction_line hA hB h.symm (h1 q hq) (h2 q hq)
    exact hull_coll3 (plexLt_ne hA) (hline x hx) (hline y hy) (hline z hz)

theorem junction_strict_min (pts : List (ℚ × ℚ)) (hncol : ¬ AllCollinear pts)
    {A m0 B : ℚ × ℚ} (hA : plexLt m0 A) (hB : plexLt m0 B)
    (h1 : ∀ q ∈ pts, 0 ≤ pcross A m0 q) (h2 : ∀ q ∈ pts, 0 ≤ pcross m0 B q)
    (hmem : B ∈ pts) : 0 < pcross A m0 B := by
  rcases (h1 B hmem).lt_or_eq with h | h
  · exact h
  · exfalso
    apply hncol
    intro x hx y hy z hz
    have hcoln : pcross (-A) (-m0) (-B) = 0 := by
      rw [pcross_neg]
      exact h.symm
    have hline : ∀ q ∈ pts, pcross A m0 q = 0 := by
      intro q hq
      have := hull_junction_line (A := -A) (M := -m0) (B := -B) (q := -q)
        (plexLt_neg.mpr hA) (plexLt_neg.mpr hB) hcoln
        (by rw [pcross_neg]; exact h1 q hq) (by rw [pcross_neg]; exact h2 q hq)
      rw [pcross_neg] at this
      exact this
    have hne : A ≠ m0 := (plexLt_ne hA).symm
    exact hull_coll3 hne (hline x hx) (hline y hy) (hline z hz)

theorem pcross_swap12 (a b c : ℚ × ℚ) : pcross a b c = -pcross b a c := by
  simp only [pcross]; ring

theorem head?_getD {α : Type} {l : List α} {x d : α} (h : l.head? = some x) :
    l.getD 0 d = x := by
  cases l with
  | nil => simp at h
  | cons a t =>
    simp only [List.head?_cons, Option.some.injEq] at h
    simpa using h

theorem getLast?_getD {α : Type} : ∀ {l : List α} {x d : α}, l.getLast? = some x →
    l.getD (l.length - 1) d = x := by
  intro l
  induction l with
  | nil => intro x d h; simp at h
  | cons a t ih =>
    intro x d h
    cases t with
    | nil => simpa using h
    | cons b t2 =>
      rw [List.getLast?_cons_cons] at h
      have hrec := ih h (d := d)
      have e : (a :: b :: t2).length - 1 = ((b :: t2).length - 1) + 1 := by
        simp only [List.length_cons]
        omega
      rw [e, List.getD_cons_succ]
      exact hrec

theorem two_le_length_of_ends {α : Type} {l : List α} {x y : α}
    (hx : l.head? = some x) (hy : l.getLast? = some y) (hne : x ≠ y) : 2 ≤ l.length := by
  cases l with
  | nil => simp at hx
  | cons a t =>
    cases t with
    | nil =>
      simp only [List.head?_cons, Option.some.injEq] at hx
      simp only [List.getLast?_singleton, Option.some.injEq] at hy
      exact absurd (hx.symm.trans hy) hne
    | cons b t2 =>
      simp only [List.length_cons]
      omega

theorem srt_ends (pts : List (ℚ × ℚ)) (hn : 0 < pts.length) :
    ∃ i0 iM, (sortedIdx pts).head? = some i0 ∧ (sortedIdx pts).getLast? = some iM ∧
      i0 ∈ sortedIdx pts ∧ iM ∈ sortedIdx pts := by
  have hne : sortedIdx pts ≠ [] := by
    intro h
    have hl := sortedIdx_length pts
    rw [h] at hl
    simp only [List.length_nil] at hl
    omega
  cases hs : sortedIdx pts with
  | nil => exact absurd hs hne
  | cons a t =>
    refine ⟨a, (a :: t).getLast (by simp), by simp, ?_, by simp, ?_⟩
    · exact List.getLast?_eq_getLast _ _
    · exact List.getLast_mem _

theorem srt_ends_lt {pts : List (ℚ × ℚ)} (hdist : pts.Pairwise (· ≠ ·))
    (hn : 2 ≤ pts.length) {i0 iM : ℕ}
    (h0 : (sortedIdx pts).head? = some i0) (hM : (sortedIdx pts).getLast? = some iM) :
    plexLt (ptsQ pts i0) (ptsQ pts iM) := by
  have hstrict := sortedIdx_strict hdist
  have hlen : 2 ≤ (sortedIdx pts).length := by rw [sortedIdx_length]; omega
  cases hs : sortedIdx pts with
  | nil => rw [hs] at h0; simp at h0
  | cons a t =>
    rw [hs] at h0 hM hstrict hlen
    simp only [List.head?_cons, Option.some.injEq] at h0
    subst h0
    cases t with
    | nil => simp at hlen
    | cons b t2 =>
      rw [List.getLast?_cons_cons] at hM
      exact (List.pairwise_cons.mp hstrict).1 iM (mem_of_getLast?_eq hM)

theorem no_shared_interior {pts : List (ℚ × ℚ)} {L U : List ℕ}
    (hGL : GoodChain (ptsQ pts) (sortedIdx pts) L)
    (hGU : GoodChain (fun t => -(ptsQ pts t)) (sortedIdx pts).reverse U)
    (jL jU : ℕ) (hjL0 : 1 ≤ jL) (hjL1 : jL + 1 < L.length)
    (hjU0 : 1 ≤ jU) (hjU1 : jU + 1 < U.length)
    (hv : L.reverse.getD jL 0 = U.reverse.getD jU 0) : False := by
  have hLrl : L.reverse.length = L.length := List.length_reverse L
  have hUrl : U.reverse.length = U.length := List.length_reverse U
  have hmem_a : L.reverse.getD (jL - 1) 0 ∈ sortedIdx pts := by
    apply hGL.sub
    rw [← List.mem_reverse, List.getD_eq_getElem _ _ (by omega)]
    exact List.getElem_mem _
  have hmem_p : U.reverse.getD (jU - 1) 0 ∈ sortedIdx pts := by
    refine List.mem_reverse.mp (hGU.sub _ ?_)
    rw [← List.mem_reverse, List.getD_eq_getElem _ _ (by omega)]
    exact List.getElem_mem _
  have hmem_w : U.reverse.getD (jU + 1) 0 ∈ sortedIdx pts := by
    refine List.mem_reverse.mp (hGU.sub _ ?_)
    rw [← List.mem_reverse, List.getD_eq_getElem _ _ (by omega)]
    exact List.getElem_mem _
  have eL : jL - 1 + 1 = jL := by omega
  have eU : jU - 1 + 1 = jU := by omega
  have hav : plexLt (ptsQ pts (L.reverse.getD (jL - 1) 0))
      (ptsQ pts (L.reverse.getD jL 0)) := by
    have hx := natural_incr hGL.incr (j := jL - 1) (by omega)
    rwa [eL] at hx
  have hvp : plexLt (ptsQ pts (U.reverse.getD jU 0))
      (ptsQ pts (U.reverse.getD (jU - 1) 0)) := by
    have hx := natural_incr hGU.incr (j := jU - 1) (by omega)
    rw [eU] at hx
    exact plexLt_neg.mp hx
  have hlow_p : 0 ≤ pcross (ptsQ pts (L.reverse.getD (jL - 1) 0))
      (ptsQ pts (L.reverse.getD jL 0)) (ptsQ pts (U.reverse.getD (jU - 1) 0)) := by
    have hx := natural_edge (hGL.above _ hmem_p) (j := jL - 1) (by omega)
    rwa [eL] at hx
  have hlow_w : 0 ≤ pcross (ptsQ pts (L.reverse.getD (jL - 1) 0))
      (ptsQ pts (L.reverse.getD jL 0)) (ptsQ pts (U.reverse.getD (jU + 1) 0)) := by
    have hx := natural_edge (hGL.above _ hmem_w) (j := jL - 1) (by omega)
    rwa [eL] at hx
  have hupp_a : 0 ≤ pcross (ptsQ pts (U.reverse.getD (jU - 1) 0))
      (ptsQ pts (U.reverse.getD jU 0)) (ptsQ pts (L.reverse.getD (jL - 1) 0)) := by
    have hx := natural_edge (hGU.above _ (List.mem_reverse.mpr hmem_a)) (j := jU - 1) (by omega)
    rw [eU] at hx
    rwa [pcross_neg] at hx
  have hturn : 0 < pcross (ptsQ pts (U.reverse.getD (jU - 1) 0))
      (ptsQ pts (U.reverse.getD jU 0)) (ptsQ pts (U.reverse.getD (jU + 1) 0)) := by
    have hx := natural_turn hGU.turn (j := jU - 1) (by omega)
    have eU2 : jU - 1 + 2 = jU + 1 := by omega
    rw [eU, eU2] at hx
    rwa [pcross_neg] at hx
  rw [← hv] at hvp hupp_a hturn
  have hcol : pcross (ptsQ pts (L.reverse.getD (jL - 1) 0))
      (ptsQ pts (L.reverse.getD jL 0)) (ptsQ pts (U.reverse.getD (jU - 1) 0)) = 0 := by
    rw [pcross_swap13] at hupp_a
    linarith
  have hshared := hull_shared_slope hav hvp hcol hlow_w
  linarith

theorem hull_raw_nodup (pts : List (ℚ × ℚ)) (hn : 3 < pts.length)
    (hdist : pts.Pairwise (· ≠ ·)) :
    ((chainFold pts (sortedIdx pts)).reverse.dropLast ++
      (chainFold pts (sortedIdx pts).reverse).reverse.dropLast).Nodup := by
  have hGL := lower_good hdist
  have hGU := upper_good hdist
  obtain ⟨i0, iM, h0, hM, hmem0, hmemM⟩ := srt_ends pts (by omega)
  have hlt0M : plexLt (ptsQ pts i0) (ptsQ pts iM) := srt_ends_lt hdist (by omega) h0 hM
  have hne0M : i0 ≠ iM := by
    intro he
    exact plexLt_irrefl _ (he ▸ hlt0M)
  have hLnodup : (chainFold pts (sortedIdx pts)).reverse.Nodup :=
    List.nodup_reverse.mpr (chainIncr_nodup hGL.incr)
  have hUnodup : (chainFold pts (sortedIdx pts).reverse).reverse.Nodup :=
    List.nodup_reverse.mpr (chainIncr_nodup hGU.incr)
  have hL0 : (chainFold pts (sortedIdx pts)).reverse.getD 0 0 = i0 := by
    apply head?_getD
    rw [List.head?_reverse, hGL.bot]
    exact h0
  have hUM : (chainFold pts (sortedIdx pts).reverse).reverse.getD 0 0 = iM := by
    apply head?_getD
    rw [List.head?_reverse, hGU.bot, List.head?_reverse]
    exact hM
  have hLM : (chainFold pts (sortedIdx pts)).reverse.getD
      ((chainFold pts (sortedIdx pts)).reverse.length - 1) 0 = iM := by
    apply getLast?_getD
    rw [List.getLast?_reverse, hGL.top]
    exact hM
  have hU0 : (chainFold pts (sortedIdx pts).reverse).reverse.getD
      ((chainFold pts (sortedIdx pts).reverse).reverse.length - 1) 0 = i0 := by
    apply getLast?_getD
    rw [List.getLast?_reverse, hGU.top, List.getLast?_reverse]
    exact h0
  have hm2 : 2 ≤ (chainFold pts (sortedIdx pts)).length := by
    refine two_le_length_of_ends (x := iM) (y := i0) ?_ ?_ (Ne.symm hne0M)
    · rw [hGL.top]; exact hM
    · rw [hGL.bot]; exact h0
  have hr2 : 2 ≤ (chainFold pts (sortedIdx pts).reverse).length := by
    refine two_le_length_of_ends (x := i0) (y := iM) ?_ ?_ hne0M
    · rw [hGU.top, List.getLast?_reverse]; exact h0
    · rw [hGU.bot, List.head?_reverse]; exact hM
  rw [List.nodup_append]
  refine ⟨List.Nodup.sublist (List.dropLast_sublist _) hLnodup,
    List.Nodup.sublist (List.dropLast_sublist _) hUnodup, ?_⟩
  intro v hvA hvB
  obtain ⟨jA, hjA, heA⟩ := List.getElem_of_mem hvA
  obtain ⟨jB, hjB, heB⟩ := List.getElem_of_mem hvB
  rw [List.getElem_dropLast] at heA heB
  have hjA2 : jA < (chainFold pts (sortedIdx pts)).reverse.length - 1 := by
    have := List.length_dropLast (chainFold pts (sortedIdx pts)).reverse
    omega
  have hjB2 : jB < (chainFold pts (sortedIdx pts).reverse).reverse.length - 1 := by
    have := List.length_dropLast (chainFold pts (sortedIdx pts).reverse).reverse
    omega
  have hLrl := List.length_reverse (chainFold pts (sortedIdx pts))
  have hUrl := List.length_reverse (chainFold pts (sortedIdx pts).reverse)
  by_cases hA0 : jA = 0
  · -- v is the lex-min index: it sits only at the LAST slot of the upper chain
    subst hA0
    have hv0 : v = i0 := by
      rw [← heA, ← List.getD_eq_getElem _ 0 (by omega)]
      exact hL0
    have hU0e : (chainFold pts (sortedIdx pts).reverse).reverse.getD
        ((chainFold pts (sortedIdx pts).reverse).reverse.length - 1) 0 = v := by
      rw [hU0, hv0]
    rw [List.getD_eq_getElem _ _ (by omega)] at hU0e
    have := (hUnodup.getElem_inj_iff).mp (heB.trans hU0e.symm)
    omega
  · by_cases hB0 : jB = 0
    · -- v is the lex-max index: it sits only at the LAST slot of the lower chain
      subst hB0
      have hvM : v = iM := by
        rw [← heB, ← List.getD_eq_getElem _ 0 (by omega)]
        exact hUM
      have hLMe : (chainFold pts (sortedIdx pts)).reverse.getD
          ((chainFold pts (sortedIdx pts)).reverse.length - 1) 0 = v := by
        rw [hLM, hvM]
      rw [List.getD_eq_getElem _ _ (by omega)] at hLMe
      have := (hLnodup.getElem_inj_iff).mp (heA.trans hLMe.symm)
      omega
    · -- v interior to both chains: geometrically impossible
      exact no_shared_interior hGL hGU jA jB
        (by omega) (by omega) (by omega) (by omega)
        (by
          rw [List.getD_eq_getElem _ _
              (show jA < (chainFold pts (sortedIdx pts)).reverse.length by omega)]
          rw [List.getD_eq_getElem _ _
              (show jB < (chainFold pts (sortedIdx pts).reverse).reverse.length by omega)]
          rw [heA, heB])

theorem hull_eq_append (pts : List (ℚ × ℚ)) (hn : 3 < pts.length)
    (hdist : pts.Pairwise (· ≠ ·)) :
    convex_hull_indices_xy pts =
      (chainFold pts (sortedIdx pts)).reverse.dropLast ++
        (chainFold pts (sortedIdx pts).reverse).reverse.dropLast := by
  rw [convex_hull_indices_xy, if_neg (by omega)]
  exact dedupFirst_eq_self (hull_raw_nodup pts hn hdist) (by simp)

theorem ptsQ_eq (pts : List (ℚ × ℚ)) (k : ℕ) : ptsQ pts k = pts.getD k (0, 0) := rfl

theorem cyclic_pair_cases {α : Type} (h : List α) (d : α) (T : α → α → Prop)
    (hlen : 1 ≤ h.length)
    (h1 : ∀ j, j + 1 < h.length → T (h.getD j d) (h.getD (j + 1) d))
    (h2 : T (h.getD (h.length - 1) d) (h.getD 0 d)) :
    ∀ i, i < h.length → T (h.getD i d) (h.getD ((i + 1) % h.length) d) := by
  intro i hi
  rcases Nat.lt_or_ge (i + 1) h.length with hlt | hge
  · rw [Nat.mod_eq_of_lt hlt]
    exact h1 i hlt
  · have e1 : (i + 1) % h.length = 0 := by
      have e : i + 1 = h.length := by omega
      rw [e, Nat.mod_self]
    have e3 : i = h.length - 1 := by omega
    rw [e1, e3]
    exact h2

theorem cyclic_triple_cases {α : Type} (h : List α) (d : α) (T : α → α → α → Prop)
    (hlen : 3 ≤ h.length)
    (h1 : ∀ j, j + 2 < h.length → T (h.getD j d) (h.getD (j + 1) d) (h.getD (j + 2) d))
    (h2 : T (h.getD (h.length - 2) d) (h.getD (h.length - 1) d) (h.getD 0 d))
    (h3 : T (h.getD (h.length - 1) d) (h.getD 0 d) (h.getD 1 d)) :
    ∀ i, i < h.length →
      T (h.getD i d) (h.getD ((i + 1) % h.length) d) (h.getD ((i + 2) % h.length) d) := by
  intro i hi
  rcases Nat.lt_trichotomy (i + 2) h.length with hlt | heq | hgt
  · rw [Nat.mod_eq_of_lt (by omega), Nat.mod_eq_of_lt hlt]
    exact h1 i hlt
  · have e1 : (i + 1) % h.length = h.length - 1 := by
      rw [Nat.mod_eq_of_lt (by omega)]
      omega
    have e2 : (i + 2) % h.length = 0 := by
      rw [heq, Nat.mod_self]
    have e3 : i = h.length - 2 := by omega
    rw [e1, e2, e3]
    exact h2
  · have e1 : (i + 1) % h.length = 0 := by
      have e : i + 1 = h.length := by omega
      rw [e, Nat.mod_self]
    have e2 : (i + 2) % h.length = 1 := by
      have e : i + 2 = h.length + 1 := by omega
      rw [e, Nat.add_mod_left]
      exact Nat.mod_eq_of_lt (by omega)
    have e3 : i = h.length - 1 := by omega
    rw [e1, e2, e3]
    exact h3

theorem hull_assembly {pts : List (ℚ × ℚ)} {L U : List ℕ}
    (hn : 3 < pts.length) (hdist : pts.Pairwise (· ≠ ·)) (hncol : ¬ AllCollinear pts)
    (hGL : GoodChain (ptsQ pts) (sortedIdx pts) L)
    (hGU : GoodChain (fun t => -(ptsQ pts t)) (sortedIdx pts).reverse U) :
    3 ≤ (L.reverse.dropLast ++ U.reverse.dropLast).length ∧
    (∀ j, j < (L.reverse.dropLast ++ U.reverse.dropLast).length → ∀ k, k < pts.length →
      0 ≤ pcross
        (ptsQ pts ((L.reverse.dropLast ++ U.reverse.dropLast).getD j 0))
        (ptsQ pts ((L.reverse.dropLast ++ U.reverse.dropLast).getD
          ((j + 1) % (L.reverse.dropLast ++ U.reverse.dropLast).length) 0))
        (ptsQ pts k)) ∧
    (∀ j, j < (L.reverse.dropLast ++ U.reverse.dropLast).length →
      0 < pcross
        (ptsQ pts ((L.reverse.dropLast ++ U.reverse.dropLast).getD j 0))
        (ptsQ pts ((L.reverse.dropLast ++ U.reverse.dropLast).getD
          ((j + 1) % (L.reverse.dropLast ++ U.reverse.dropLast).length) 0))
        (ptsQ pts ((L.reverse.dropLast ++ U.reverse.dropLast).getD
          ((j + 2) % (L.reverse.dropLast ++ U.reverse.dropLast).length) 0))) := by
  obtain ⟨i0, iM, h0, hM, hmem0, hmemM⟩ := srt_ends pts (by omega)
  have hlt0M := srt_ends_lt hdist (by omega) h0 hM
  have hne0M : i0 ≠ iM := fun he => plexLt_irrefl _ (he ▸ hlt0M)
  have hm2 : 2 ≤ L.length :=
    two_le_length_of_ends (hGL.top.trans hM) (hGL.bot.trans h0) (Ne.symm hne0M)
  have hr2 : 2 ≤ U.length :=
    two_le_length_of_ends (hGU.top.trans ((List.getLast?_reverse _).trans h0))
      (hGU.bot.trans ((List.head?_reverse _).trans hM)) hne0M
  have hmL : L.reverse.length = L.length := List.length_reverse L
  have hmU : U.reverse.length = U.length := List.length_reverse U
  have hL0 : L.reverse.getD 0 0 = i0 :=
    head?_getD (by rw [List.head?_reverse]; exact hGL.bot.trans h0)
  have hLM : L.reverse.getD (L.reverse.length - 1) 0 = iM :=
    getLast?_getD (by rw [List.getLast?_reverse]; exact hGL.top.trans hM)
  have hU0 : U.reverse.getD 0 0 = iM :=
    head?_getD (by
      rw [List.head?_reverse]
      exact hGU.bot.trans ((List.head?_reverse _).trans hM))
  have hUr : U.reverse.getD (U.reverse.length - 1) 0 = i0 :=
    getLast?_getD (by
      rw [List.getLast?_reverse]
      exact hGU.top.trans ((List.getLast?_reverse _).trans h0))
  have hLmem : ∀ j, j < L.length → L.reverse.getD j 0 < pts.length := by
    intro j hj
    apply (sortedIdx_mem pts).mp
    apply hGL.sub
    rw [← List.mem_reverse, List.getD_eq_getElem _ _ (by omega)]
    exact List.getElem_mem _
  have hUmem : ∀ j, j < U.length → U.reverse.getD j 0 < pts.length := by
    intro j hj
    apply (sortedIdx_mem pts).mp
    refine List.mem_reverse.mp (hGU.sub _ ?_)
    rw [← List.mem_reverse, List.getD_eq_getElem _ _ (by omega)]
    exact List.getElem_mem _
  have hPmem : ∀ t, t < pts.length → ptsQ pts t ∈ pts := by
    intro t ht
    rw [ptsQ_eq, List.getD_eq_getElem _ _ ht]
    exact List.getElem_mem _
  have hLedge : ∀ j, j + 1 < L.length → ∀ q ∈ pts,
      0 ≤ pcross (ptsQ pts (L.reverse.getD j 0)) (ptsQ pts (L.reverse.getD (j + 1) 0)) q := by
    intro j hj q hq
    obtain ⟨k, hk, he⟩ := List.getElem_of_mem hq
    have hx := natural_edge (hGL.above k ((sortedIdx_mem pts).mpr hk)) (j := j) hj
    rwa [show ptsQ pts k = q from by
      rw [ptsQ_eq, List.getD_eq_getElem _ _ hk]; exact he] at hx
  have hUedge : ∀ j, j + 1 < U.length → ∀ q ∈ pts,
      0 ≤ pcross (ptsQ pts (U.reverse.getD j 0)) (ptsQ pts (U.reverse.getD (j + 1) 0)) q := by
    intro j hj q hq
    obtain ⟨k, hk, he⟩ := List.getElem_of_mem hq
    have hx := natural_edge
      (hGU.above k (List.mem_reverse.mpr ((sortedIdx_mem pts).mpr hk))) (j := j) hj
    rw [pcross_neg] at hx
    rwa [show ptsQ pts k = q from by
      rw [ptsQ_eq, List.getD_eq_getElem _ _ hk]; exact he] at hx
  have hLturn : ∀ j, j + 2 < L.length →
      0 < pcross (ptsQ pts (L.reverse.getD j 0)) (ptsQ pts (L.reverse.getD (j + 1) 0))
        (ptsQ pts (L.reverse.getD (j + 2) 0)) := fun j hj => natural_turn hGL.turn hj
  have hUturn : ∀ j, j + 2 < U.length →
      0 < pcross (ptsQ pts (U.reverse.getD j 0)) (ptsQ pts (U.reverse.getD (j + 1) 0))
        (ptsQ pts (U.reverse.getD (j + 2) 0)) := by
    intro j hj
    have hx := natural_turn hGU.turn (j := j) hj
    rwa [pcross_neg] at hx
  have hLincr : ∀ j, j + 1 < L.length →
      plexLt (ptsQ pts (L.reverse.getD j 0)) (ptsQ pts (L.reverse.getD (j + 1) 0)) :=
    fun j hj => natural_incr hGL.incr hj
  have hUdecr : ∀ j, j + 1 < U.length →
      plexLt (ptsQ pts (U.reverse.getD (j + 1) 0)) (ptsQ pts (U.reverse.getD j 0)) := by
    intro j hj
    exact plexLt_neg.mp (natural_incr hGU.incr hj)
  have hlen3core : 5 ≤ L.length + U.length := by
    by_contra hc
    push_neg at hc
    have hm : L.length = 2 := by omega
    have hr : U.length = 2 := by omega
    apply hncol
    have hzero : ∀ k ∈ pts, pcross (ptsQ pts i0) (ptsQ pts iM) k = 0 := by
      intro k hk
      have e1 := hLedge 0 (by omega) k hk
      have e2 := hUedge 0 (by omega) k hk
      rw [hL0] at e1
      rw [hU0] at e2
      rw [show (0 : ℕ) + 1 = L.reverse.length - 1 from by omega, hLM] at e1
      rw [show (0 : ℕ) + 1 = U.reverse.length - 1 from by omega, hUr] at e2
      rw [pcross_swap12] at e2
      linarith
    intro a ha b hb c hc2
    exact hull_coll3 (plexLt_ne hlt0M) (hzero a ha) (hzero b hb) (hzero c hc2)
  set H := L.reverse.dropLast ++ U.reverse.dropLast with hHdef
  have hHlen : H.length = (L.length - 1) + (U.length - 1) := by
    rw [hHdef, List.length_append, List.length_dropLast, List.length_dropLast, hmL, hmU]
  have hlen3 : 3 ≤ H.length := by omega
  have hgetL : ∀ j, j < L.length - 1 → H.getD j 0 = L.reverse.getD j 0 := by
    intro j hj
    rw [hHdef, List.getD_append _ _ _ _ (by rw [List.length_dropLast]; omega)]
    rw [List.getD_eq_getElem _ _ (by rw [List.length_dropLast]; omega),
      List.getElem_dropLast]
    exact (List.getD_eq_getElem _ _ (by omega)).symm
  have hgetU : ∀ j, L.length - 1 ≤ j → j < H.length →
      H.getD j 0 = U.reverse.getD (j - (L.length - 1)) 0 := by
    intro j hj1 hj2
    rw [hHdef, List.getD_append_right _ _ _ _ (by rw [List.length_dropLast]; omega)]
    rw [show j - L.reverse.dropLast.length = j - (L.length - 1) from by
      rw [List.length_dropLast]; omega]
    rw [List.getD_eq_getElem _ _ (by rw [List.length_dropLast]; omega),
      List.getElem_dropLast]
    exact (List.getD_eq_getElem _ _ (by omega)).symm
  have hH0 : H.getD 0 0 = i0 := by
    rw [hgetL 0 (by omega), hL0]
  have hH1 : H.getD 1 0 = L.reverse.getD 1 0 := by
    by_cases hc : 1 < L.length - 1
    · exact hgetL 1 hc
    · rw [hgetU 1 (by omega) (by omega)]
      rw [show 1 - (L.length - 1) = 0 from by omega, hU0]
      rw [show (1 : ℕ) = L.reverse.length - 1 from by omega, hLM]
  have hHlast : H.getD (H.length - 1) 0 = U.reverse.getD (U.length - 2) 0 := by
    rw [hgetU (H.length - 1) (by omega) (by omega)]
    rw [show H.length - 1 - (L.length - 1) = U.length - 2 from by omega]
  have htriples : ∀ j, j + 2 < H.length →
      0 < pcross (ptsQ pts (H.getD j 0)) (ptsQ pts (H.getD (j + 1) 0))
        (ptsQ pts (H.getD (j + 2) 0)) := by
    intro j hj
    by_cases c1 : j + 2 < L.length
    · have e0 : H.getD j 0 = L.reverse.getD j 0 := hgetL j (by omega)
      have e1 : H.getD (j + 1) 0 = L.reverse.getD (j + 1) 0 := hgetL (j + 1) (by omega)
      have e2 : H.getD (j + 2) 0 = L.reverse.getD (j + 2) 0 := by
        by_cases hc : j + 2 < L.length - 1
        · exact hgetL (j + 2) hc
        · rw [hgetU (j + 2) (by omega) (by omega)]
          rw [show j + 2 - (L.length - 1) = 0 from by omega, hU0]
          rw [show j + 2 = L.reverse.length - 1 from by omega, hLM]
      rw [e0, e1, e2]
      exact hLturn j (by omega)
    · by_cases c2 : j + 2 = L.length
      · have e0 : H.getD j 0 = L.reverse.getD j 0 := hgetL j (by omega)
        have e1 : H.getD (j + 1) 0 = U.reverse.getD 0 0 := by
          rw [hgetU (j + 1) (by omega) (by omega)]
          rw [show j + 1 - (L.length - 1) = 0 from by omega]
        have e2 : H.getD (j + 2) 0 = U.reverse.getD 1 0 := by
          rw [hgetU (j + 2) (by omega) (by omega)]
          rw [show j + 2 - (L.length - 1) = 1 from by omega]
        rw [e0, e1, e2, hU0]
        apply junction_strict_max pts hncol
        · have hx := hLincr (L.length - 2) (by omega)
          rw [show L.length - 2 + 1 = L.reverse.length - 1 from by omega, hLM] at hx
          rw [show j = L.length - 2 from by omega]
          exact hx
        · have hx := hUdecr 0 (by omega)
          rw [hU0] at hx
          exact hx
        · intro q hq
          have hx := hLedge (L.length - 2) (by omega) q hq
          rw [show L.length - 2 + 1 = L.reverse.length - 1 from by omega, hLM] at hx
          rw [show j = L.length - 2 from by omega]
          exact hx
        · intro q hq
          have hx := hUedge 0 (by omega) q hq
          rw [hU0] at hx
          exact hx
        · exact hPmem _ (hUmem 1 (by omega))
      · have hge : L.length - 1 ≤ j := by omega
        have e0 : H.getD j 0 = U.reverse.getD (j - (L.length - 1)) 0 := hgetU j hge (by omega)
        have e1 : H.getD (j + 1) 0 = U.reverse.getD (j - (L.length - 1) + 1) 0 := by
          rw [hgetU (j + 1) (by omega) (by omega)]
          rw [show j + 1 - (L.length - 1) = j - (L.length - 1) + 1 from by omega]
        have e2 : H.getD (j + 2) 0 = U.reverse.getD (j - (L.length - 1) + 2) 0 := by
          rw [hgetU (j + 2) (by omega) (by omega)]
          rw [show j + 2 - (L.length - 1) = j - (L.length - 1) + 2 from by omega]
        rw [e0, e1, e2]
        exact hUturn _ (by omega)
  have hwrap1 : 0 < pcross (ptsQ pts (H.getD (H.length - 2) 0))
      (ptsQ pts (H.getD (H.length - 1) 0)) (ptsQ pts (H.getD 0 0)) := by
    by_cases hc : 3 ≤ U.length
    · have e0 : H.getD (H.length - 2) 0 = U.reverse.getD (U.length - 3) 0 := by
        rw [hgetU (H.length - 2) (by omega) (by omega)]
        rw [show H.length - 2 - (L.length - 1) = U.length - 3 from by omega]
      have e1 : H.getD (H.length - 1) 0 = U.reverse.getD (U.length - 3 + 1) 0 := by
        rw [hHlast]
        rw [show U.length - 2 = U.length - 3 + 1 from by omega]
      have e2 : H.getD 0 0 = U.reverse.getD (U.length - 3 + 2) 0 := by
        rw [hH0, ← hUr]
        rw [show U.reverse.length - 1 = U.length - 3 + 2 from by omega]
      rw [e0, e1, e2]
      exact hUturn _ (by omega)
    · have e0 : H.getD (H.length - 2) 0 = L.reverse.getD (L.length - 2) 0 := by
        rw [hgetL (H.length - 2) (by omega)]
        rw [show H.length - 2 = L.length - 2 from by omega]
      have e1 : H.getD (H.length - 1) 0 = U.reverse.getD 0 0 := by
        rw [hgetU (H.length - 1) (by omega) (by omega)]
        rw [show H.length - 1 - (L.length - 1) = 0 from by omega]
      rw [e0, e1, hU0, hH0]
      apply junction_strict_max pts hncol
      · have hx := hLincr (L.length - 2) (by omega)
        rw [show L.length - 2 + 1 = L.reverse.length - 1 from by omega, hLM] at hx
        exact hx
      · exact hlt0M
      · intro q hq
        have hx := hLedge (L.length - 2) (by omega) q hq
        rw [show L.length - 2 + 1 = L.reverse.length - 1 from by omega, hLM] at hx
        exact hx
      · intro q hq
        have hx := hUedge 0 (by omega) q hq
        rw [hU0] at hx
        rw [show (0 : ℕ) + 1 = U.reverse.length - 1 from by omega, hUr] at hx
        exact hx
      · exact hPmem i0 ((sortedIdx_mem pts).mp hmem0)
  have hwrap2 : 0 < pcross (ptsQ pts (H.getD (H.length - 1) 0))
      (ptsQ pts (H.getD 0 0)) (ptsQ pts (H.getD 1 0)) := by
    rw [hHlast, hH0, hH1]
    apply junction_strict_min pts hncol
    · have hx := hUdecr (U.length - 2) (by omega)
      rw [show U.length - 2 + 1 = U.reverse.length - 1 from by omega, hUr] at hx
      exact hx
    · have hx := hLincr 0 (by omega)
      rw [hL0] at hx
      exact hx
    · intro q hq
      have hx := hUedge (U.length - 2) (by omega) q hq
      rw [show U.length - 2 + 1 = U.reverse.length - 1 from by omega, hUr] at hx
      exact hx
    · intro q hq
      have hx := hLedge 0 (by omega) q hq
      rw [hL0] at hx
      exact hx
    · exact hPmem _ (hLmem 1 (by omega))
  have hedges : ∀ j, j + 1 < H.length → ∀ k, k < pts.length →
      0 ≤ pcross (ptsQ pts (H.getD j 0)) (ptsQ pts (H.getD (j + 1) 0)) (ptsQ pts k) := by
    intro j hj k hk
    by_cases c1 : j + 1 < L.length
    · have e0 : H.getD j 0 = L.reverse.getD j 0 := hgetL j (by omega)
      have e1 : H.getD (j + 1) 0 = L.reverse.getD (j + 1) 0 := by
        by_cases hc : j + 1 < L.length - 1
        · exact hgetL (j + 1) hc
        · rw [hgetU (j + 1) (by omega) (by omega)]
          rw [show j + 1 - (L.length - 1) = 0 from by omega, hU0]
          rw [show j + 1 = L.reverse.length - 1 from by omega, hLM]
      rw [e0, e1]
      exact hLedge j (by omega) _ (hPmem k hk)
    · have hge : L.length - 1 ≤ j := by omega
      have e0 : H.getD j 0 = U.reverse.getD (j - (L.length - 1)) 0 := hgetU j hge (by omega)
      have e1 : H.getD (j + 1) 0 = U.reverse.getD (j - (L.length - 1) + 1) 0 := by
        rw [hgetU (j + 1) (by omega) (by omega)]
        rw [show j + 1 - (L.length - 1) = j - (L.length - 1) + 1 from by omega]
      rw [e0, e1]
      exact hUedge _ (by omega) _ (hPmem k hk)
  have hwrapE : ∀ k, k < pts.length →
      0 ≤ pcross (ptsQ pts (H.getD (H.length - 1) 0)) (ptsQ pts (H.getD 0 0))
        (ptsQ pts k) := by
    intro k hk
    rw [hHlast, hH0, ← hUr]
    have hx := hUedge (U.length - 2) (by omega) _ (hPmem k hk)
    rw [show U.length - 2 + 1 = U.reverse.length - 1 from by omega] at hx
    exact hx
  refine ⟨hlen3, ?_, ?_⟩
  · intro j hj k hk
    exact cyclic_pair_cases H 0
      (fun a b => 0 ≤ pcross (ptsQ pts a) (ptsQ pts b) (ptsQ pts k)) (by omega)
      (fun j2 hj2 => hedges j2 hj2 k hk) (hwrapE k hk) j hj
  · intro j hj
    exact cyclic_triple_cases H 0
      (fun a b c => 0 < pcross (ptsQ pts a) (ptsQ pts b) (ptsQ pts c)) hlen3
      htriples hwrap1 hwrap2 j hj

theorem getD_map_lt {pts : List (ℚ × ℚ)} {l : List ℕ} {j : ℕ} (hj : j < l.length) :
    (l.map (ptsQ pts)).getD j (0, 0) = ptsQ pts (l.getD j 0) := by
  rw [List.getD_eq_getElem _ _ (by simpa using hj), List.getD_eq_getElem _ _ hj,
    List.getElem_map]

theorem hull_mem (pts : List (ℚ × ℚ)) (hn : 3 < pts.length)
    (hdist : pts.Pairwise (· ≠ ·)) :
    ∀ i ∈ convex_hull_indices_xy pts, i < pts.length := by
  intro i hi
  rw [hull_eq_append pts hn hdist] at hi
  have hGL := lower_good hdist
  have hGU := upper_good hdist
  rcases List.mem_append.mp hi with h | h
  · have hm : i ∈ chainFold pts (sortedIdx pts) :=
      List.mem_reverse.mp ((List.dropLast_sublist _).subset h)
    exact (sortedIdx_mem pts).mp (hGL.sub i hm)
  · have hm : i ∈ chainFold pts (sortedIdx pts).reverse :=
      List.mem_reverse.mp ((List.dropLast_sublist _).subset h)
    exact (sortedIdx_mem pts).mp (List.mem_reverse.mp (hGU.sub i hm))

theorem convex_hull_geometry (pts : List (ℚ × ℚ)) (hn : 3 < pts.length)
    (hdist : pts.Pairwise (· ≠ ·)) (hncol : ¬ AllCollinear pts) :
    3 ≤ (convex_hull_indices_xy pts).length ∧
    (∀ j, j < (convex_hull_indices_xy pts).length → ∀ k, k < pts.length →
      0 ≤ pcross
        (ptsQ pts ((convex_hull_indices_xy pts).getD j 0))
        (ptsQ pts ((convex_hull_indices_xy pts).getD
          ((j + 1) % (convex_hull_indices_xy pts).length) 0))
        (ptsQ pts k)) ∧
    (∀ j, j < (convex_hull_indices_xy pts).length →
      0 < pcross
        (ptsQ pts ((convex_hull_indices_xy pts).getD j 0))
        (ptsQ pts ((convex_hull_indices_xy pts).getD
          ((j + 1) % (convex_hull_indices_xy pts).length) 0))
        (ptsQ pts ((convex_hull_indices_xy pts).getD
          ((j + 2) % (convex_hull_indices_xy pts).length) 0))) := by
  have h := hull_assembly hn hdist hncol (lower_good hdist) (upper_good hdist)
  rwa [← hull_eq_append pts hn hdist] at h

theorem hfr_region2_take (pts : List (ℚ × ℚ)) :
    (hfr_region2 pts).take (hfr_hull_idx pts).length
      = (hfr_hull_idx pts).map (fun old => pts.getD old (0, 0)) := by
  rw [hfr_region2, hfr_new_order, List.map_append,
    show (hfr_hull_idx pts).length
      = ((hfr_hull_idx pts).map (fun old => pts.getD old (0, 0))).length
      from (List.length_map _ _).symm]
  exact List.take_left _ _

/-- C5 (amended): for at most 3 points `convex_hull_indices_xy` returns
`range n` as-is; for more than 3 pairwise-distinct points that are not all
collinear, the hull indices describe a strictly convex CCW polygon, that
polygon contains every region point produced by `hull_first_reorder`, and
the first `len(hull_idx)` reordered region coordinates are exactly the hull
polygon's vertices in order. -/
theorem convex_hull_spec (pts : List (ℚ × ℚ)) :
    (pts.length ≤ 3 → convex_hull_indices_xy pts = List.range pts.length) ∧
    (3 < pts.length → pts.Pairwise (· ≠ ·) → ¬ AllCollinear pts →
      IsCCWConvexPolygon ((convex_hull_indices_xy pts).map (ptsQ pts)) ∧
      (∀ q ∈ hfr_region2 pts,
        PolygonContains ((convex_hull_indices_xy pts).map (ptsQ pts)) q) ∧
      (hfr_region2 pts).take (hfr_hull_idx pts).length
        = (convex_hull_indices_xy pts).map (ptsQ pts)) := by
  constructor
  · intro h3
    rw [convex_hull_indices_xy, if_pos h3]
  · intro hn hdist hncol
    obtain ⟨hlen3, hcontain, hturn⟩ := convex_hull_geometry pts hn hdist hncol
    have hmem := hull_mem pts hn hdist
    refine ⟨⟨?_, ?_⟩, ?_, ?_⟩
    · rwa [List.length_map]
    · intro i hi
      simp only [List.length_map] at hi ⊢
      rw [getD_map_lt hi, getD_map_lt (Nat.mod_lt _ (by omega)),
        getD_map_lt (Nat.mod_lt _ (by omega))]
      exact hturn i hi
    · intro q hq
      rw [hfr_region2] at hq
      obtain ⟨old, hold, rfl⟩ := List.mem_map.mp hq
      have holdn : old < pts.length := by
        rw [hfr_new_order] at hold
        rcases List.mem_append.mp hold with h | h
        · rw [hfr_hull_idx, if_pos (by omega)] at h
          exact hmem old h
        · exact List.mem_range.mp (List.mem_filter.mp h).1
      intro i hi
      simp only [List.length_map] at hi ⊢
      rw [getD_map_lt hi, getD_map_lt (Nat.mod_lt _ (by omega))]
      exact hcontain i hi old holdn
    · rw [hfr_region2_take, hfr_hull_idx, if_pos (by omega)]
      rfl

theorem convex_hull_collinear_counterexample :
    3 < ([((-3 : ℚ), (0 : ℚ)), ((-1 : ℚ), (0 : ℚ)), ((1 : ℚ), (0 : ℚ)),
        ((3 : ℚ), (0 : ℚ))] : List (ℚ × ℚ)).length ∧
    List.Pairwise (· ≠ ·)
      ([((-3 : ℚ), (0 : ℚ)), ((-1 : ℚ), (0 : ℚ)), ((1 : ℚ), (0 : ℚ)),
        ((3 : ℚ), (0 : ℚ))] : List (ℚ × ℚ)) ∧
    (convex_hull_indices_xy
      [((-3 : ℚ), (0 : ℚ)), ((-1 : ℚ), (0 : ℚ)), ((1 : ℚ), (0 : ℚ)),
        ((3 : ℚ), (0 : ℚ))]).length = 2 ∧
    ¬ IsCCWConvexPolygon
      ((convex_hull_indices_xy
        [((-3 : ℚ), (0 : ℚ)), ((-1 : ℚ), (0 : ℚ)), ((1 : ℚ), (0 : ℚ)),
          ((3 : ℚ), (0 : ℚ))]).map
        (ptsQ [((-3 : ℚ), (0 : ℚ)), ((-1 : ℚ), (0 : ℚ)), ((1 : ℚ), (0 : ℚ)),
          ((3 : ℚ), (0 : ℚ))])) := by
  set pts4 : List (ℚ × ℚ) :=
    [((-3 : ℚ), (0 : ℚ)), ((-1 : ℚ), (0 : ℚ)), ((1 : ℚ), (0 : ℚ)),
      ((3 : ℚ), (0 : ℚ))] with hpts
  have hsorted : sortedIdx pts4 = [0, 1, 2, 3] := by
    rw [sortedIdx, show pts4.length = 4 from rfl]
    exact List.mergeSort_of_sorted (by decide)
  have g0 : pts4.getD 0 (0, 0) = ((-3 : ℚ), (0 : ℚ)) := rfl
  have g1 : pts4.getD 1 (0, 0) = ((-1 : ℚ), (0 : ℚ)) := rfl
  have g2 : pts4.getD 2 (0, 0) = ((1 : ℚ), (0 : ℚ)) := rfl
  have g3 : pts4.getD 3 (0, 0) = ((3 : ℚ), (0 : ℚ)) := rfl
  have hc012 : cross_xy pts4 0 1 2 ≤ 0 := by
    rw [cross_xy_eq_pcross, g0, g1, g2]
    simp only [pcross]
    norm_num
  have hc023 : cross_xy pts4 0 2 3 ≤ 0 := by
    rw [cross_xy_eq_pcross, g0, g2, g3]
    simp only [pcross]
    norm_num
  have hc321 : cross_xy pts4 3 2 1 ≤ 0 := by
    rw [cross_xy_eq_pcross, g3, g2, g1]
    simp only [pcross]
    norm_num
  have hc310 : cross_xy pts4 3 1 0 ≤ 0 := by
    rw [cross_xy_eq_pcross, g3, g1, g0]
    simp only [pcross]
    norm_num
  have p2 : chPop pts4 2 [1, 0] = [0] := by rw [chPop, if_pos hc012]; rfl
  have p3 : chPop pts4 3 [2, 0] = [0] := by rw [chPop, if_pos hc023]; rfl
  have q2 : chPop pts4 1 [2, 3] = [3] := by rw [chPop, if_pos hc321]; rfl
  have q3 : chPop pts4 0 [1, 3] = [3] := by rw [chPop, if_pos hc310]; rfl
  have hlow : chainFold pts4 [0, 1, 2, 3] = [3, 0] := by
    rw [chainFold]
    simp only [List.foldl_cons, List.foldl_nil]
    rw [show chPop pts4 0 [] = [] from rfl, show chPop pts4 1 [0] = [0] from rfl, p2, p3]
  have hupp : chainFold pts4 [3, 2, 1, 0] = [0, 3] := by
    rw [chainFold]
    simp only [List.foldl_cons, List.foldl_nil]
    rw [show chPop pts4 3 [] = [] from rfl, show chPop pts4 2 [3] = [3] from rfl, q2, q3]
  have hhull : convex_hull_indices_xy pts4 = [0, 3] := by
    rw [convex_hull_indices_xy, if_neg (by rw [hpts]; decide)]
    show dedupFirst ((chainFold pts4 (sortedIdx pts4)).reverse.dropLast ++
      (chainFold pts4 (sortedIdx pts4).reverse).reverse.dropLast) [] = [0, 3]
    rw [hsorted, show ([0, 1, 2, 3] : List ℕ).reverse = [3, 2, 1, 0] from rfl, hlow, hupp]
    decide
  refine ⟨by rw [hpts]; decide, by rw [hpts]; decide, ?_, ?_⟩
  · rw [hhull]
    decide
  · rintro ⟨h3, -⟩
    rw [hhull] at h3
    simp only [List.length_map, List.length_cons, List.length_nil] at h3
    omega

theorem convex_hull_spec_witness :
    IsCCWConvexPolygon ((convex_hull_indices_xy
        [((-1 : ℚ), (-1 : ℚ)), ((-1 : ℚ), (1 : ℚ)), ((1 : ℚ), (-1 : ℚ)),
          ((1 : ℚ), (1 : ℚ))]).map
      (ptsQ [((-1 : ℚ), (-1 : ℚ)), ((-1 : ℚ), (1 : ℚ)), ((1 : ℚ), (-1 : ℚ)),
          ((1 : ℚ), (1 : ℚ))])) ∧
    (∀ q ∈ hfr_region2
        [((-1 : ℚ), (-1 : ℚ)), ((-1 : ℚ), (1 : ℚ)), ((1 : ℚ), (-1 : ℚ)),
          ((1 : ℚ), (1 : ℚ))],
      PolygonContains ((convex_hull_indices_xy
          [((-1 : ℚ), (-1 : ℚ)), ((-1 : ℚ), (1 : ℚ)), ((1 : ℚ), (-1 : ℚ)),
            ((1 : ℚ), (1 : ℚ))]).map
        (ptsQ [((-1 : ℚ), (-1 : ℚ)), ((-1 : ℚ), (1 : ℚ)), ((1 : ℚ), (-1 : ℚ)),
            ((1 : ℚ), (1 : ℚ))])) q) ∧
    (hfr_region2
        [((-1 : ℚ), (-1 : ℚ)), ((-1 : ℚ), (1 : ℚ)), ((1 : ℚ), (-1 : ℚ)),
          ((1 : ℚ), (1 : ℚ))]).take
      (hfr_hull_idx
        [((-1 : ℚ), (-1 : ℚ)), ((-1 : ℚ), (1 : ℚ)), ((1 : ℚ), (-1 : ℚ)),
          ((1 : ℚ), (1 : ℚ))]).length
      = (convex_hull_indices_xy
        [((-1 : ℚ), (-1 : ℚ)), ((-1 : ℚ), (1 : ℚ)), ((1 : ℚ), (-1 : ℚ)),
          ((1 : ℚ), (1 : ℚ))]).map
        (ptsQ [((-1 : ℚ), (-1 : ℚ)), ((-1 : ℚ), (1 : ℚ)), ((1 : ℚ), (-1 : ℚ)),
          ((1 : ℚ), (1 : ℚ))]) := by
  refine (convex_hull_spec
    [((-1 : ℚ), (-1 : ℚ)), ((-1 : ℚ), (1 : ℚ)), ((1 : ℚ), (-1 : ℚ)),
      ((1 : ℚ), (1 : ℚ))]).2 (by decide) (by decide) ?_
  intro h
  have h1 := h ((-1 : ℚ), (-1 : ℚ)) (by decide) ((-1 : ℚ), (1 : ℚ)) (by decide)
    ((1 : ℚ), (-1 : ℚ)) (by decide)
  simp only [pcross] at h1
  norm_num at h1

end Spine
